import Mathlib

/-!
Verification of the scalar reverse-mode automatic-differentiation engine
(the `Value` class of `siren_examples/MLPBasics.ipynb`) and of the
Newton-Schulz iteration (`newton_schulz_iteration.ipynb`).

The `Value` objects form a mutable heap of nodes; we embed the heap as a
list of nodes indexed by position (a fresh node is appended at the end, so
a node's operands always have strictly smaller indices than the node
itself).  Python floats are idealized as elements of a linear ordered
field (`ℚ` for executable witnesses, `ℝ` for the analytic claims).
Operations that can raise (`__pow__` on a zero base with a negative
exponent) return `Option`; a raised exception is `none`, and since state
is passed functionally, an aborted call leaves no trace on the heap.
-/

namespace MLPBasics

/-- The `_op` tag of a node together with the `_children` operand tuple
(operand heap indices), exactly as recorded by each `Value` constructor
call in the notebook.  `__pow__` accepts an integer or a float exponent
(`assert(isinstance(deg, (int, float)), ...)`), and the constant `deg` is
captured by the `_backward` closure: `powi` records an integer exponent,
`powf` a float exponent (a float is idealized as a scalar of the ambient
field `α`). -/
inductive Op (α : Type) : Type where
  | leaf
  | add (a b : Nat)
  | mul (a b : Nat)
  | powi (a : Nat) (d : ℤ)
  | powf (a : Nat) (p : α)
  | relu (a : Nat)
  | tanh (a : Nat)
  | sigm (a : Nat)
  | sin (a : Nat)
  | cos (a : Nat)
  | exp (a : Nat)
  deriving DecidableEq

/-- The ordered `_children` tuple passed to the `Value` constructor. -/
def Op.children {α : Type} : Op α → List Nat
  | .leaf => []
  | .add a b => [a, b]
  | .mul a b => [a, b]
  | .powi a _ => [a]
  | .powf a _ => [a]
  | .relu a => [a]
  | .tanh a => [a]
  | .sigm a => [a]
  | .sin a => [a]
  | .cos a => [a]
  | .exp a => [a]

/-- One `Value` object: its `data`, its `grad` accumulator, and the
operation record that determines its stored `_backward` closure. -/
structure VNode (α : Type) where
  data : α
  grad : α
  op : Op α
  deriving DecidableEq

/-- The heap of `Value` objects, indexed by position. -/
abbrev Graph (α : Type) := List (VNode α)

/-- The ambient transcendental functions: `exp`, `sin`, `cos` from the
`math` module (referenced by the `_backward` closures and forward passes
of `tanh`, `sigmoid`, `sin`, `cos` and `exp`), and `rpow`, the semantics
of Python's float-exponent `**` operator (real exponentiation `x ** p`,
used by `__pow__` when `deg` is a float). -/
structure MathFuns (α : Type) where
  exp : α → α
  sin : α → α
  cos : α → α
  rpow : α → α → α

variable {α : Type} [LinearOrderedField α]

/-- `data` field of the node at index `i` (0 for a dangling index). -/
def dataAt (g : Graph α) (i : Nat) : α :=
  match g[i]? with
  | some n => n.data
  | none => 0

/-- `grad` field of the node at index `i` (0 for a dangling index). -/
def gradAt (g : Graph α) (i : Nat) : α :=
  match g[i]? with
  | some n => n.grad
  | none => 0

/-- Operation record of the node at index `i` (`leaf` for a dangling index). -/
def opAt (g : Graph α) (i : Nat) : Op α :=
  match g[i]? with
  | some n => n.op
  | none => .leaf

/-- Assignment `node.grad = x` (a no-op on a dangling index). -/
def setGrad (g : Graph α) (i : Nat) (x : α) : Graph α :=
  g.set i ⟨dataAt g i, x, opAt g i⟩

/-- `_prev = set(_children)`: the deduplicated operand set iterated by
`build_topo`. -/
def prevList (g : Graph α) (v : Nat) : List Nat :=
  (opAt g v).children.dedup

/-- `Value(data)`: allocate a fresh leaf node with `grad = 0.0`. -/
def newValue (g : Graph α) (d : α) : Graph α × Nat :=
  (g ++ [⟨d, 0, .leaf⟩], g.length)

/-- `__add__`: `out = Value(self.data + other.data, (self, other), '+')`. -/
def vadd (g : Graph α) (a b : Nat) : Graph α × Nat :=
  (g ++ [⟨dataAt g a + dataAt g b, 0, .add a b⟩], g.length)

/-- `__mul__`: `out = Value(self.data * other.data, (self, other), '*')`. -/
def vmul (g : Graph α) (a b : Nat) : Graph α × Nat :=
  (g ++ [⟨dataAt g a * dataAt g b, 0, .mul a b⟩], g.length)

/-- `__pow__` with an integer exponent: `Value(self.data ** deg, (self,))`.
Python raises `ZeroDivisionError` on `0 ** deg` for `deg < 0`; the raise is
modelled as `none`, produced before any heap modification. -/
def vpow (g : Graph α) (a : Nat) (d : ℤ) : Option (Graph α × Nat) :=
  if dataAt g a = 0 ∧ d < 0 then none
  else some (g ++ [⟨dataAt g a ^ d, 0, .powi a d⟩], g.length)

/-- `__pow__` with a float exponent: `Value(self.data ** deg, (self,))`,
where float `**` is real exponentiation (the `rpow` of the ambient
`MathFuns`).  Python raises `ZeroDivisionError` on `0.0 ** deg` for
`deg < 0`; the raise is modelled as `none`, produced before any heap
modification.  (On a negative base with a non-integral exponent Python
produces a `complex` result, which leaves the real-valued idealization;
such runs are excluded by the hypotheses of the theorems below.) -/
def vpowf (M : MathFuns α) (g : Graph α) (a : Nat) (p : α) : Option (Graph α × Nat) :=
  if dataAt g a = 0 ∧ p < 0 then none
  else some (g ++ [⟨M.rpow (dataAt g a) p, 0, .powf a p⟩], g.length)

/-- `__truediv__`: `self * other**-1`; the exponentiation runs first and a
`ZeroDivisionError` raised there propagates to the caller. -/
def vdiv (g : Graph α) (a b : Nat) : Option (Graph α × Nat) :=
  (vpow g b (-1)).map fun p => vmul p.1 a p.2

/-- `relu`: `t = x if x > 0 else 0`; returns the new node. -/
def vrelu (g : Graph α) (i : Nat) : Graph α × Option Nat :=
  (g ++ [⟨if 0 < dataAt g i then dataAt g i else 0, 0, .relu i⟩], some g.length)

/-- `tanh`: `t = (exp(2n)-1)/(exp(2n)+1)`; returns the new node. -/
def vtanh (M : MathFuns α) (g : Graph α) (i : Nat) : Graph α × Option Nat :=
  (g ++ [⟨(M.exp (2 * dataAt g i) - 1) / (M.exp (2 * dataAt g i) + 1), 0, .tanh i⟩],
    some g.length)

/-- The forward value computed by `sigmoid`: the literal Python expression
`1 / 1 - math.exp(-x)`, which by operator precedence is `(1/1) - exp(-x)`. -/
def sigmoidFwd (M : MathFuns α) (x : α) : α :=
  1 / 1 - M.exp (-x)

/-- `sigmoid`: builds the node `out` and installs its `_backward`, but has
no `return` statement, so the method's result is `None`. -/
def vsigmoid (M : MathFuns α) (g : Graph α) (i : Nat) : Graph α × Option Nat :=
  (g ++ [⟨sigmoidFwd M (dataAt g i), 0, .sigm i⟩], none)

/-- `sin`: `t = math.sin(x)`; returns the new node. -/
def vsin (M : MathFuns α) (g : Graph α) (i : Nat) : Graph α × Option Nat :=
  (g ++ [⟨M.sin (dataAt g i), 0, .sin i⟩], some g.length)

/-- `cos`: `t = math.cos(x)`; returns the new node. -/
def vcos (M : MathFuns α) (g : Graph α) (i : Nat) : Graph α × Option Nat :=
  (g ++ [⟨M.cos (dataAt g i), 0, .cos i⟩], some g.length)

/-- `exp`: `t = math.exp(x)`; returns the new node. -/
def vexp (M : MathFuns α) (g : Graph α) (i : Nat) : Graph α × Option Nat :=
  (g ++ [⟨M.exp (dataAt g i), 0, .exp i⟩], some g.length)

/-- `zero_grad`: `self.grad = 0` on the single node it is invoked on. -/
def zeroGrad (g : Graph α) (i : Nat) : Graph α :=
  setGrad g i 0

/-- State of the `build_topo` recursion: the accumulating `topo` list and
the `visited` set (represented as a list queried only by membership). -/
structure TopoState where
  topo : List Nat
  visited : List Nat

/-- `build_topo` with explicit fuel.  `build_topo(v)` marks `v` visited,
recursively visits every element of `v._prev`, then appends `v` to `topo`.
Recursion descends to strictly smaller indices on heaps built by the
`Value` constructors, so fuel `v+1` never runs out on them. -/
def buildTopoF (g : Graph α) : Nat → Nat → TopoState → TopoState
  | 0, _, s => s
  | fuel + 1, v, s =>
    if v ∈ s.visited then s
    else
      let s1 : TopoState := ⟨s.topo, v :: s.visited⟩
      let s2 := (prevList g v).foldl (fun acc c => buildTopoF g fuel c acc) s1
      ⟨s2.topo ++ [v], s2.visited⟩

/-- The `topo` list produced by `build_topo(self)` inside `backward`,
starting from empty `topo` and `visited`. -/
def buildTopo (g : Graph α) (root : Nat) : List Nat :=
  (buildTopoF g (root + 1) root ⟨[], []⟩).topo

/-- `node._backward()`: the stored gradient-accumulation closure of one
node.  Each `+=` statement reads every field from the current heap and is
applied in program order.  Caveat: the pow closures evaluate
`self.data ** (deg - 1)`, which in Python raises `ZeroDivisionError` on a
zero base with `deg - 1 < 0` (and yields a `complex` on a negative base
with a non-integral float exponent); this total function extends those
runs with the junk values `0 ^ n = 0` (zpow) and whatever `M.rpow`
returns, so it models the source faithfully only on nodes satisfying
`powSafeAt` below — the completed-run hypothesis of the `backward`
theorems. -/
def nodeBackward (M : MathFuns α) (g : Graph α) (n : Nat) : Graph α :=
  match opAt g n with
  | .leaf => g
  | .add a b =>
    let g1 := setGrad g a (gradAt g a + 1 * gradAt g n)
    setGrad g1 b (gradAt g1 b + 1 * gradAt g1 n)
  | .mul a b =>
    let g1 := setGrad g a (gradAt g a + dataAt g b * gradAt g n)
    setGrad g1 b (gradAt g1 b + dataAt g1 a * gradAt g1 n)
  | .powi a d =>
    setGrad g a (gradAt g a + (d : α) * dataAt g a ^ (d - 1) * gradAt g n)
  | .powf a p =>
    setGrad g a (gradAt g a + p * M.rpow (dataAt g a) (p - 1) * gradAt g n)
  | .relu a =>
    setGrad g a (gradAt g a + if 0 < dataAt g a then 1 * gradAt g n else 0)
  | .tanh a =>
    setGrad g a (gradAt g a + (1 - dataAt g n ^ 2) * gradAt g n)
  | .sigm a =>
    setGrad g a (gradAt g a + dataAt g n * (1 - dataAt g n) * gradAt g n)
  | .sin a =>
    setGrad g a (gradAt g a + M.cos (dataAt g a) * gradAt g n)
  | .cos a =>
    setGrad g a (gradAt g a + -M.sin (dataAt g a) * gradAt g n)
  | .exp a =>
    setGrad g a (gradAt g a + dataAt g n * gradAt g n)

/-- `backward`: build the topological order, seed `self.grad = 1.0`, then
invoke each node's `_backward` in reverse topological order. -/
def backward (M : MathFuns α) (g : Graph α) (root : Nat) : Graph α :=
  let topo := buildTopo g root
  let g1 := setGrad g root 1
  topo.reverse.foldl (fun h n => nodeBackward M h n) g1

/-- Heaps produced by the `Value` constructors: every operand index is
strictly below its node's index (operands exist before their consumer). -/
def Wf (g : Graph α) : Prop :=
  ∀ v, v < g.length → ∀ c ∈ prevList g v, c < v

/-- The `_backward` closure of the node at `j` completes with a real
result.  Only the pow closures can fail: they evaluate
`self.data ** (deg - 1)`, which raises `ZeroDivisionError` when the
operand's `data` is `0` and `deg - 1 < 0`, and for a float `deg` yields a
non-real `complex` value when the operand's `data` is negative and
`deg - 1` non-integral.  `powi` therefore needs a nonzero base or
`deg ≥ 1`; `powf` a positive base, or a zero base with `deg ≥ 1` (where
`0.0 ** x` agrees with `rpow`). -/
def powSafeAt (g : Graph α) (j : Nat) : Prop :=
  match opAt g j with
  | .powi a d => dataAt g a ≠ 0 ∨ 0 ≤ d - 1
  | .powf a p => 0 < dataAt g a ∨ (dataAt g a = 0 ∧ 0 ≤ p - 1)
  | _ => True

instance (g : Graph α) (j : Nat) : Decidable (powSafeAt g j) := by
  unfold powSafeAt
  cases opAt g j <;> dsimp only <;> infer_instance

/-- `backward(root)` runs every `_backward` closure of the topological
order; it returns normally (with real-valued grads) iff every node of
that order is `powSafeAt`.  On such runs the total model `backward`
coincides with the source step for step. -/
def BackwardCompletes (g : Graph α) (root : Nat) : Prop :=
  ∀ j ∈ buildTopo g root, powSafeAt g j

instance (g : Graph α) (root : Nat) : Decidable (BackwardCompletes g root) :=
  List.decidableBAll (powSafeAt g) (buildTopo g root)

/-- `node._backward()` with the failure path explicit: `none` exactly
when the pow closure raises `ZeroDivisionError` (`0 ** negative`) or
leaves the reals (negative base, non-integral float exponent); otherwise
the heap update of `nodeBackward`.  (A negative base with an integral
float exponent also completes in Python and agrees with `rpow`; that
measure-zero corner is folded into the failure side to keep the predicate
decidable.) -/
def nodeBackwardE (M : MathFuns α) (g : Graph α) (n : Nat) : Option (Graph α) :=
  if powSafeAt g n then some (nodeBackward M g n) else none

/-- `backward` with the raises made explicit: build the topological
order, seed `self.grad = 1.0`, then run each `_backward` in reverse
topological order, aborting (`none`, exception propagates) at the first
failing closure. -/
def backwardE (M : MathFuns α) (g : Graph α) (root : Nat) : Option (Graph α) :=
  let topo := buildTopo g root
  let g1 := setGrad g root 1
  topo.reverse.foldl (fun h n => h.bind fun h0 => nodeBackwardE M h0 n) (some g1)

/-- `x` is an ancestor of `v` (reflexively) through `_prev` edges. -/
inductive Reaches (g : Graph α) : Nat → Nat → Prop where
  | refl (v : Nat) : Reaches g v v
  | step {v c x : Nat} : c ∈ prevList g v → Reaches g c x → Reaches g v x

theorem length_setGrad (g : Graph α) (i : Nat) (x : α) :
    (setGrad g i x).length = g.length := by
  simp [setGrad]

theorem dataAt_setGrad (g : Graph α) (i j : Nat) (x : α) :
    dataAt (setGrad g i x) j = dataAt g j := by
  unfold dataAt setGrad
  rw [List.getElem?_set']
  by_cases hij : i = j
  · subst hij
    cases hg : g[i]? <;> simp [hg, dataAt]
  · simp [hij]

theorem opAt_setGrad (g : Graph α) (i j : Nat) (x : α) :
    opAt (setGrad g i x) j = opAt g j := by
  unfold opAt setGrad
  rw [List.getElem?_set']
  by_cases hij : i = j
  · subst hij
    cases hg : g[i]? <;> simp [hg, opAt]
  · simp [hij]

theorem prevList_setGrad (g : Graph α) (i j : Nat) (x : α) :
    prevList (setGrad g i x) j = prevList g j := by
  simp [prevList, opAt_setGrad]

theorem gradAt_setGrad (g : Graph α) (i j : Nat) (x : α) :
    gradAt (setGrad g i x) j = if j = i ∧ i < g.length then x else gradAt g j := by
  unfold gradAt setGrad
  rw [List.getElem?_set']
  by_cases hij : i = j
  · subst hij
    cases hg : g[i]? with
    | none =>
      have : ¬ i < g.length := by
        intro hlt
        rw [List.getElem?_eq_getElem hlt] at hg
        exact Option.noConfusion hg
      simp [hg, this]
    | some n =>
      have : i < g.length := by
        by_contra hge
        rw [List.getElem?_eq_none (Nat.le_of_not_lt hge)] at hg
        exact Option.noConfusion hg
      simp [hg, this]
  · have : ¬ (j = i ∧ i < g.length) := fun hc => hij hc.1.symm
    simp [hij, this]

theorem gradAt_out_of_range (g : Graph α) (j : Nat) (h : g.length ≤ j) :
    gradAt g j = 0 := by
  unfold gradAt
  rw [List.getElem?_eq_none h]

theorem dataAt_append_lt (g t : Graph α) (j : Nat) (h : j < g.length) :
    dataAt (g ++ t) j = dataAt g j := by
  unfold dataAt
  rw [List.getElem?_append]
  simp [h]

theorem gradAt_append_lt (g t : Graph α) (j : Nat) (h : j < g.length) :
    gradAt (g ++ t) j = gradAt g j := by
  unfold gradAt
  rw [List.getElem?_append]
  simp [h]

theorem opAt_append_lt (g t : Graph α) (j : Nat) (h : j < g.length) :
    opAt (g ++ t) j = opAt g j := by
  unfold opAt
  rw [List.getElem?_append]
  simp [h]

theorem dataAt_append_self (g : Graph α) (n : VNode α) (t : Graph α) :
    dataAt (g ++ n :: t) g.length = n.data := by
  unfold dataAt
  rw [List.getElem?_append]
  simp

theorem opAt_append_self (g : Graph α) (n : VNode α) (t : Graph α) :
    opAt (g ++ n :: t) g.length = n.op := by
  unfold opAt
  rw [List.getElem?_append]
  simp

theorem gradAt_append_self (g : Graph α) (n : VNode α) (t : Graph α) :
    gradAt (g ++ n :: t) g.length = n.grad := by
  unfold gradAt
  rw [List.getElem?_append]
  simp

/-- A stand-in `math` module over `ℚ` for concrete test graphs; the graphs
used in the concrete theorems below contain no transcendental nodes, so
these values are never consulted. -/
def Mq : MathFuns ℚ := ⟨fun _ => 0, fun _ => 0, fun _ => 0, fun _ _ => 0⟩

/-- The real `math` module over `ℝ`. -/
noncomputable def MathR : MathFuns ℝ :=
  ⟨Real.exp, Real.sin, Real.cos, fun x p => x ^ p⟩

/-- The two-node heap for `y = x + x`: a single leaf `x` with data `d`
used as both operands of one addition. -/
def xplusx (d : ℚ) : Graph ℚ × Nat :=
  vadd (newValue ([] : Graph ℚ) d).1 0 0

/-- After one `backward()` call on `y = x + x`, the heap holds
`x.grad = 2` and `y.grad = 1`. -/
theorem xplusx_backward_eq (M : MathFuns ℚ) (d : ℚ) :
    backward M (xplusx d).1 (xplusx d).2 = [⟨d, 2, .leaf⟩, ⟨d + d, 1, .add 0 0⟩] := by
  simp [xplusx, backward, buildTopo, buildTopoF, nodeBackward, setGrad, gradAt, dataAt,
    opAt, prevList, Op.children, newValue, vadd, List.dedup, List.foldl]
  norm_num

/-- A second `backward()` call on the already-propagated heap of
`y = x + x` accumulates on top of the stale gradients. -/
theorem xplusx_backward_twice_eq (M : MathFuns ℚ) (d : ℚ) :
    backward M ([⟨d, 2, .leaf⟩, ⟨d + d, 1, .add 0 0⟩] : Graph ℚ) 1 =
      [⟨d, 4, .leaf⟩, ⟨d + d, 1, .add 0 0⟩] := by
  simp [backward, buildTopo, buildTopoF, nodeBackward, setGrad, gradAt, dataAt,
    opAt, prevList, Op.children, List.dedup, List.foldl]
  norm_num

/-- C3: building `y = x + x` from one shared leaf and calling
`y.backward()` leaves `x.grad = 2.0` and `y.grad = 1.0`: the accumulation
rule sums one contribution per consuming edge even though `_prev`
deduplicates the shared operand. -/
theorem shared_operand_backward_doubles_grad (M : MathFuns ℚ) (d : ℚ) :
    gradAt (backward M (xplusx d).1 (xplusx d).2) 0 = 2 ∧
    gradAt (backward M (xplusx d).1 (xplusx d).2) 1 = 1 ∧
    gradAt (backward M (xplusx d).1 (xplusx d).2) 0 =
      2 * gradAt (backward M (xplusx d).1 (xplusx d).2) 1 := by
  rw [xplusx_backward_eq]
  refine ⟨rfl, rfl, ?_⟩
  norm_num [gradAt]

/-- C10: `backward()` re-assigns only the output's grad to 1.0 and never
resets the other accumulators, so a second call adds the same
contributions again (`x.grad`: 2.0 then 4.0, `y.grad`: 1.0 after each
call), while `zero_grad` resets exactly the one node it is invoked on. -/
theorem second_backward_accumulates_on_stale_grads (M : MathFuns ℚ) (d : ℚ) :
    (gradAt (backward M (xplusx d).1 (xplusx d).2) 0 = 2 ∧
      gradAt (backward M (xplusx d).1 (xplusx d).2) 1 = 1) ∧
    (gradAt (backward M (backward M (xplusx d).1 (xplusx d).2) (xplusx d).2) 0 = 4 ∧
      gradAt (backward M (backward M (xplusx d).1 (xplusx d).2) (xplusx d).2) 1 = 1) ∧
    (∀ (g : Graph ℚ) (i j : Nat), j ≠ i → gradAt (zeroGrad g i) j = gradAt g j) ∧
    (∀ (g : Graph ℚ) (i : Nat), i < g.length → gradAt (zeroGrad g i) i = 0) := by
  have h2 : (xplusx d).2 = 1 := rfl
  refine ⟨⟨?_, ?_⟩, ⟨?_, ?_⟩, fun g i j hj => ?_, fun g i hi => ?_⟩
  · rw [xplusx_backward_eq]; rfl
  · rw [xplusx_backward_eq]; rfl
  · rw [xplusx_backward_eq, h2, xplusx_backward_twice_eq]; rfl
  · rw [xplusx_backward_eq, h2, xplusx_backward_twice_eq]; rfl
  · rw [zeroGrad, gradAt_setGrad]
    simp [hj]
  · rw [zeroGrad, gradAt_setGrad]
    simp [hi]

/-- Concrete instance for the hypotheses of
`second_backward_accumulates_on_stale_grads`. -/
theorem second_backward_accumulates_on_stale_grads_witness :
    (2 : Nat) ≠ 1 ∧ (1 : Nat) < ([⟨5, 3, .leaf⟩] : Graph ℚ).length ∨
    (gradAt (zeroGrad ([⟨5, 3, .leaf⟩, ⟨7, 4, .leaf⟩] : Graph ℚ) 1) 0 = 3 ∧
      gradAt (zeroGrad ([⟨5, 3, .leaf⟩, ⟨7, 4, .leaf⟩] : Graph ℚ) 1) 1 = 0) := by
  right
  constructor
  · rw [(second_backward_accumulates_on_stale_grads Mq 0).2.2.1
      ([⟨5, 3, .leaf⟩, ⟨7, 4, .leaf⟩] : Graph ℚ) 1 0 (by decide)]
    rfl
  · exact (second_backward_accumulates_on_stale_grads Mq 0).2.2.2
      ([⟨5, 3, .leaf⟩, ⟨7, 4, .leaf⟩] : Graph ℚ) 1 (by decide)

/-- C9: `sigmoid` has no `return` statement and yields `None`, while
every other unary operation returns the freshly built node. -/
theorem sigmoid_returns_none_unlike_other_unary_ops (M : MathFuns α) (g : Graph α) (i : Nat) :
    (vsigmoid M g i).2 = none ∧
    (vrelu g i).2 = some g.length ∧
    (vtanh M g i).2 = some g.length ∧
    (vsin M g i).2 = some g.length ∧
    (vcos M g i).2 = some g.length ∧
    (vexp M g i).2 = some g.length :=
  ⟨rfl, rfl, rfl, rfl, rfl, rfl⟩

/-- C6: dividing by a `Value` whose data is 0 computes `other ** -1`
first, which raises `ZeroDivisionError` (modelled as `none`) before any
node is allocated, and the error propagates through `__truediv__`. -/
theorem truediv_by_zero_raises_before_alloc (g : Graph α) (a b : Nat)
    (hb : dataAt g b = 0) :
    vpow g b (-1) = none ∧ vdiv g a b = none := by
  have h1 : vpow g b (-1) = none := by
    simp [vpow, hb]
  exact ⟨h1, by simp [vdiv, h1]⟩

/-- Concrete instance for the hypothesis of
`truediv_by_zero_raises_before_alloc`. -/
theorem truediv_by_zero_raises_before_alloc_witness :
    dataAt ([⟨0, 0, .leaf⟩] : Graph ℚ) 0 = 0 ∧
    (vpow ([⟨0, 0, .leaf⟩] : Graph ℚ) 0 (-1) = none ∧
      vdiv ([⟨0, 0, .leaf⟩] : Graph ℚ) 1 0 = none) :=
  ⟨rfl, truediv_by_zero_raises_before_alloc ([⟨0, 0, .leaf⟩] : Graph ℚ) 1 0 rfl⟩

/-- C5: by operator precedence `1 / 1 - math.exp(-x)` is
`1 - exp(-x)`, not the logistic function; the true derivative of the
computed function is `exp(-x)`, which the stored rule `t*(1-t)` does not
match (checked at `x = 0`). -/
theorem sigmoid_precedence_bug :
    (∀ (g : Graph ℝ) (i : Nat),
      dataAt (vsigmoid MathR g i).1 g.length = 1 - Real.exp (-dataAt g i)) ∧
    (∀ x : ℝ, HasDerivAt (sigmoidFwd MathR) (Real.exp (-x)) x) ∧
    sigmoidFwd MathR 0 ≠ 1 / (1 + Real.exp (-(0 : ℝ))) ∧
    sigmoidFwd MathR 0 * (1 - sigmoidFwd MathR 0) ≠ Real.exp (-(0 : ℝ)) := by
  refine ⟨fun g i => ?_, fun x => ?_, ?_, ?_⟩
  · show dataAt (g ++ ⟨sigmoidFwd MathR (dataAt g i), 0, .sigm i⟩ :: []) g.length = _
    rw [dataAt_append_self]
    show sigmoidFwd MathR (dataAt g i) = _
    rw [sigmoidFwd]
    norm_num [MathR]
  · have hd : HasDerivAt (fun y : ℝ => Real.exp (-y)) (Real.exp (-x) * (-1)) x := by
      have := (Real.hasDerivAt_exp (-x)).comp x (hasDerivAt_neg x)
      simpa [Function.comp] using this
    have := hd.const_sub (1 / 1 : ℝ)
    have hgoal : HasDerivAt (fun y : ℝ => 1 / 1 - Real.exp (-y)) (Real.exp (-x)) x := by
      convert this using 1
      ring
    exact hgoal
  · norm_num [sigmoidFwd, MathR]
  · norm_num [sigmoidFwd, MathR]

/-- A fragment of Python's dynamic values, enough to model the `assert`
statement and the `**` operator inside `__pow__`.  `pyValueObj` stands
for a `Value` instance passed as the exponent. -/
inductive PyVal : Type where
  | pyBool (b : Bool)
  | pyInt (n : ℤ)
  | pyFloat (q : ℚ)
  | pyStr (s : String)
  | pyTuple (elems : List PyVal)
  | pyValueObj (id : Nat)

/-- Python truthiness: `bool(v)`.  A tuple is truthy iff it is nonempty;
in particular every two-element tuple is truthy. -/
def truthy : PyVal → Bool
  | .pyBool b => b
  | .pyInt n => n != 0
  | .pyFloat q => q != 0
  | .pyStr s => s.length != 0
  | .pyTuple es => es.length != 0
  | .pyValueObj _ => true

/-- `isinstance(deg, (int, float))` (a Python `bool` is an `int`). -/
def isNumeric : PyVal → Bool
  | .pyBool _ => true
  | .pyInt _ => true
  | .pyFloat _ => true
  | _ => false

/-- The value tested by the `assert` in `__pow__`: the parenthesized
expression is a single two-element tuple
`(isinstance(deg, (int, float)), "only supports powers that are int or float")`,
not an assert with a message. -/
def powAssertArg (deg : PyVal) : PyVal :=
  .pyTuple [.pyBool (isNumeric deg), .pyStr "only supports powers that are int or float"]

/-- How the `__pow__` body terminates. -/
inductive PyOutcome : Type where
  | ok (data : ℚ)
  | assertionError
  | typeError
  | zeroDivisionError
  deriving DecidableEq

/-- The outcome of `self.data ** deg` for a numeric `self.data`: numeric
exponents succeed, except that `0 ** deg` with a negative exponent raises
`ZeroDivisionError`, and a non-numeric exponent such as a `Value` raises
`TypeError`.  Only this outcome classification is used by the theorems;
the numeric payload of the float-exponent branch is a placeholder
(`x ^ q.num`, the numerator's power — ℚ has no real exponentiation), and
no theorem depends on it. -/
def pyPowData : ℚ → PyVal → PyOutcome
  | x, .pyInt n => if x = 0 ∧ n < 0 then .zeroDivisionError else .ok (x ^ n)
  | x, .pyBool b => .ok (x ^ (if b then (1 : ℤ) else 0))
  | x, .pyFloat q => if x = 0 ∧ q < 0 then .zeroDivisionError else .ok (x ^ q.num)
  | _, _ => .typeError

/-- The body of `__pow__`: first the `assert`, then `self.data ** deg`. -/
def powMethod (selfData : ℚ) (deg : PyVal) : PyOutcome :=
  if truthy (powAssertArg deg) = false then .assertionError
  else pyPowData selfData deg

/-- C8: the `assert` in `__pow__` tests a two-element tuple, which is
always truthy, so it can never fail; the intended test
`isinstance(deg, (int, float))` is false for a `Value` exponent, yet such
a call passes the assert and raises `TypeError` from `self.data ** deg`
instead of `AssertionError`. -/
theorem pow_assert_tuple_always_truthy :
    (∀ deg : PyVal, truthy (powAssertArg deg) = true) ∧
    truthy (.pyBool false) = false ∧
    (∀ v : Nat, isNumeric (.pyValueObj v) = false) ∧
    (∀ (x : ℚ) (v : Nat), powMethod x (.pyValueObj v) = .typeError) ∧
    (∀ (x : ℚ) (deg : PyVal), powMethod x deg ≠ .assertionError) := by
  refine ⟨fun deg => rfl, rfl, fun v => rfl, fun x v => rfl, fun x deg => ?_⟩
  cases deg <;>
    simp [powMethod, powAssertArg, truthy, pyPowData] <;>
    split_ifs <;>
    simp

theorem prevList_out_of_range (g : Graph α) (v : Nat) (h : g.length ≤ v) :
    prevList g v = [] := by
  unfold prevList opAt
  rw [List.getElem?_eq_none h]
  rfl

theorem prevList_lt {g : Graph α} (hwf : Wf g) {v c : Nat} (hc : c ∈ prevList g v) :
    c < v := by
  rcases Nat.lt_or_ge v g.length with h | h
  · exact hwf v h c hc
  · rw [prevList_out_of_range g v h] at hc
    exact absurd hc (List.not_mem_nil c)

theorem reaches_le {g : Graph α} (hwf : Wf g) {v x : Nat} (h : Reaches g v x) : x ≤ v := by
  induction h with
  | refl v => exact Nat.le_refl v
  | step hc _ ih => exact Nat.le_trans ih (Nat.le_of_lt (prevList_lt hwf hc))

/-- The invariant of the `build_topo` accumulator state: `topo` has no
duplicates, is contained in `visited`, is closed under operands, and
never lists a node before one of its operands. -/
structure DfsInv (g : Graph α) (s : TopoState) : Prop where
  nodup : s.topo.Nodup
  sub : ∀ x ∈ s.topo, x ∈ s.visited
  closed : ∀ j ∈ s.topo, ∀ c ∈ prevList g j, c ∈ s.topo
  ordered : s.topo.Pairwise (fun a b => b ∉ prevList g a)

theorem reaches_mem_topo {g : Graph α} {s : TopoState} (hinv : DfsInv g s)
    {v x : Nat} (hv : v ∈ s.topo) (h : Reaches g v x) : x ∈ s.topo := by
  induction h with
  | refl v => exact hv
  | step hc _ ih => exact ih (hinv.closed _ hv _ hc)

/-- Everything one complete `build_topo(v)` call guarantees. -/
structure DfsPost (g : Graph α) (v : Nat) (s s' : TopoState) : Prop where
  grow : ∃ Δ, s'.topo = s.topo ++ Δ ∧ ∀ x ∈ Δ, x ≤ v ∧ x ∉ s.visited ∧ Reaches g v x
  vis_mono : ∀ x ∈ s.visited, x ∈ s'.visited
  vis_new_in_topo : ∀ x ∈ s'.visited, x ∈ s.visited ∨ x ∈ s'.topo
  complete : ∀ x, Reaches g v x → x ∈ s'.topo
  inv : DfsInv g s'

/-- Everything the fold of `build_topo` over a node's `_prev` guarantees. -/
structure FoldPost (g : Graph α) (v : Nat) (L : List Nat) (s0 s' : TopoState) : Prop where
  grow : ∃ Δ, s'.topo = s0.topo ++ Δ ∧
    ∀ x ∈ Δ, (x < v ∧ x ∉ s0.visited) ∧ ∃ c ∈ L, Reaches g c x
  vis_mono : ∀ x ∈ s0.visited, x ∈ s'.visited
  vis_new_in_topo : ∀ x ∈ s'.visited, x ∈ s0.visited ∨ x ∈ s'.topo
  complete : ∀ c ∈ L, ∀ x, Reaches g c x → x ∈ s'.topo
  inv : DfsInv g s'

theorem dfsPost_gray_sub {g : Graph α} {v : Nat} {s s' : TopoState}
    (p : DfsPost g v s s') :
    ∀ x ∈ s'.visited, x ∉ s'.topo → x ∈ s.visited ∧ x ∉ s.topo := by
  intro x hxv hxt
  obtain ⟨Δ, hΔ, _⟩ := p.grow
  have hxs : x ∈ s.visited := by
    rcases p.vis_new_in_topo x hxv with h | h
    · exact h
    · exact absurd h hxt
  refine ⟨hxs, fun hmem => hxt ?_⟩
  rw [hΔ]
  exact List.mem_append_left Δ hmem

theorem foldPost_gray_sub {g : Graph α} {v : Nat} {L : List Nat} {s0 s' : TopoState}
    (p : FoldPost g v L s0 s') :
    ∀ x ∈ s'.visited, x ∉ s'.topo → x ∈ s0.visited ∧ x ∉ s0.topo := by
  intro x hxv hxt
  obtain ⟨Δ, hΔ, _⟩ := p.grow
  have hxs : x ∈ s0.visited := by
    rcases p.vis_new_in_topo x hxv with h | h
    · exact h
    · exact absurd h hxt
  refine ⟨hxs, fun hmem => hxt ?_⟩
  rw [hΔ]
  exact List.mem_append_left Δ hmem

theorem dfs_fold (g : Graph α) (hwf : Wf g) (fuel v : Nat)
    (ih : ∀ (w : Nat) (s : TopoState), w < fuel → DfsInv g s →
      (∀ x ∈ s.visited, x ∉ s.topo → w < x) → DfsPost g w s (buildTopoF g fuel w s))
    (hvf : v ≤ fuel) :
    ∀ (L : List Nat) (s0 : TopoState), (∀ c ∈ L, c < v) →
      DfsInv g s0 → (∀ x ∈ s0.visited, x ∉ s0.topo → v ≤ x) →
      FoldPost g v L s0 (L.foldl (fun acc c => buildTopoF g fuel c acc) s0) := by
  intro L
  induction L with
  | nil =>
    intro s0 _ hinv _
    exact ⟨⟨[], by simp, fun x hx => absurd hx (List.not_mem_nil x)⟩, fun x h => h,
      fun x h => Or.inl h, fun c hc => absurd hc (List.not_mem_nil c), hinv⟩
  | cons c L' ihL =>
    intro s0 hLlt hinv hgray
    have hc : c < v := hLlt c (List.mem_cons_self c L')
    have p1 : DfsPost g c s0 (buildTopoF g fuel c s0) :=
      ih c s0 (Nat.lt_of_lt_of_le hc hvf) hinv
        (fun x hxv hxt => Nat.lt_of_lt_of_le hc (hgray x hxv hxt))
    set s1 := buildTopoF g fuel c s0 with hs1
    have hgray1 : ∀ x ∈ s1.visited, x ∉ s1.topo → v ≤ x := fun x hxv hxt => by
      obtain ⟨h1, h2⟩ := dfsPost_gray_sub p1 x hxv hxt
      exact hgray x h1 h2
    have p2 : FoldPost g v L' s1 (L'.foldl (fun acc c => buildTopoF g fuel c acc) s1) :=
      ihL s1 (fun d hd => hLlt d (List.mem_cons_of_mem c hd)) p1.inv hgray1
    have hfold : (c :: L').foldl (fun acc c => buildTopoF g fuel c acc) s0 =
        L'.foldl (fun acc c => buildTopoF g fuel c acc) s1 := by
      simp [List.foldl_cons, hs1]
    rw [hfold]
    set s2 := L'.foldl (fun acc c => buildTopoF g fuel c acc) s1 with hs2
    obtain ⟨Δ1, hΔ1, hΔ1p⟩ := p1.grow
    obtain ⟨Δ2, hΔ2, hΔ2p⟩ := p2.grow
    refine ⟨⟨Δ1 ++ Δ2, ?_, ?_⟩, ?_, ?_, ?_, p2.inv⟩
    · rw [hΔ2, hΔ1, List.append_assoc]
    · intro x hx
      rcases List.mem_append.mp hx with h | h
      · obtain ⟨hle, hnv, hr⟩ := hΔ1p x h
        exact ⟨⟨Nat.lt_of_le_of_lt hle hc, hnv⟩, c, List.mem_cons_self c L', hr⟩
      · obtain ⟨⟨hlt, hnv⟩, c', hc', hr⟩ := hΔ2p x h
        exact ⟨⟨hlt, fun hmem => hnv (p1.vis_mono x hmem)⟩,
          c', List.mem_cons_of_mem c hc', hr⟩
    · intro x hx
      exact p2.vis_mono x (p1.vis_mono x hx)
    · intro x hx
      rcases p2.vis_new_in_topo x hx with h | h
      · rcases p1.vis_new_in_topo x h with h' | h'
        · exact Or.inl h'
        · refine Or.inr ?_
          rw [hΔ2]
          exact List.mem_append_left Δ2 h'
      · exact Or.inr h
    · intro d hd x hx
      rcases List.mem_cons.mp hd with h | h
      · subst h
        have : x ∈ s1.topo := p1.complete x hx
        rw [hΔ2]
        exact List.mem_append_left Δ2 this
      · exact p2.complete d h x hx

theorem dfs_main (g : Graph α) (hwf : Wf g) :
    ∀ (fuel v : Nat) (s : TopoState), v < fuel → DfsInv g s →
      (∀ x ∈ s.visited, x ∉ s.topo → v < x) →
      DfsPost g v s (buildTopoF g fuel v s) := by
  intro fuel
  induction fuel with
  | zero =>
    intro v s hv
    exact absurd hv (Nat.not_lt_zero v)
  | succ fuel ihf =>
    intro v s hv hinv hgray
    by_cases hvis : v ∈ s.visited
    · have hstate : buildTopoF g (fuel + 1) v s = s := by
        simp [buildTopoF, hvis]
      rw [hstate]
      have hvt : v ∈ s.topo := by
        by_contra hvt
        exact absurd (hgray v hvis hvt) (Nat.lt_irrefl v)
      exact ⟨⟨[], by simp, by simp⟩, fun x h => h, fun x h => Or.inl h,
        fun x hx => reaches_mem_topo hinv hvt hx, hinv⟩
    · have hstate : buildTopoF g (fuel + 1) v s =
          ⟨((prevList g v).foldl (fun acc c => buildTopoF g fuel c acc)
              ⟨s.topo, v :: s.visited⟩).topo ++ [v],
            ((prevList g v).foldl (fun acc c => buildTopoF g fuel c acc)
              ⟨s.topo, v :: s.visited⟩).visited⟩ := by
        simp [buildTopoF, hvis]
      set s1 : TopoState := ⟨s.topo, v :: s.visited⟩ with hs1def
      have hinv1 : DfsInv g s1 := ⟨hinv.nodup,
        fun x hx => List.mem_cons_of_mem v (hinv.sub x hx), hinv.closed, hinv.ordered⟩
      have hgray1 : ∀ x ∈ s1.visited, x ∉ s1.topo → v ≤ x := by
        intro x hxv hxt
        rcases List.mem_cons.mp hxv with h | h
        · exact Nat.le_of_eq h.symm
        · exact Nat.le_of_lt (hgray x h hxt)
      have pf : FoldPost g v (prevList g v) s1
          ((prevList g v).foldl (fun acc c => buildTopoF g fuel c acc) s1) :=
        dfs_fold g hwf fuel v ihf (Nat.le_of_lt_succ hv) (prevList g v) s1
          (fun c hc => prevList_lt hwf hc) hinv1 hgray1
      set s2 := (prevList g v).foldl (fun acc c => buildTopoF g fuel c acc) s1 with hs2
      rw [hstate]
      obtain ⟨Δf, hΔf, hΔfp⟩ := pf.grow
      have hvnot2 : v ∉ s2.topo := by
        rw [hΔf]
        intro hmem
        rcases List.mem_append.mp hmem with h | h
        · exact hvis (hinv.sub v h)
        · exact absurd (hΔfp v h).1.1 (Nat.lt_irrefl v)
      refine ⟨⟨Δf ++ [v], ?_, ?_⟩, ?_, ?_, ?_, ?_, ?_, ?_, ?_⟩
      · show s2.topo ++ [v] = s.topo ++ (Δf ++ [v])
        rw [hΔf, List.append_assoc]
      · intro x hx
        rcases List.mem_append.mp hx with h | h
        · obtain ⟨⟨hlt, hnv⟩, c, hc, hcx⟩ := hΔfp x h
          have hnv' : x ∉ s.visited := fun hmem => hnv (List.mem_cons_of_mem v hmem)
          exact ⟨Nat.le_of_lt hlt, hnv', Reaches.step hc hcx⟩
        · have hxv : x = v := List.mem_singleton.mp h
          rw [hxv]
          exact ⟨Nat.le_refl v, hvis, Reaches.refl v⟩
      · intro x hx
        exact pf.vis_mono x (List.mem_cons_of_mem v hx)
      · intro x hx
        rcases pf.vis_new_in_topo x hx with h | h
        · rcases List.mem_cons.mp h with h' | h'
          · subst h'
            exact Or.inr (List.mem_append_right s2.topo (List.mem_singleton_self x))
          · exact Or.inl h'
        · exact Or.inr (List.mem_append_left [v] h)
      · intro x hx
        cases hx with
        | refl v => exact List.mem_append_right s2.topo (List.mem_singleton_self v)
        | step hc hcx => exact List.mem_append_left [v] (pf.complete _ hc _ hcx)
      · refine List.Nodup.append pf.inv.nodup (List.nodup_singleton v) ?_
        intro a ha hb
        rcases List.mem_singleton.mp hb with rfl
        exact hvnot2 ha
      · intro x hx
        rcases List.mem_append.mp hx with h | h
        · exact pf.inv.sub x h
        · have hxv : x = v := List.mem_singleton.mp h
          rw [hxv]
          exact pf.vis_mono v (List.mem_cons_self v s.visited)
      · intro j hj c hc
        rcases List.mem_append.mp hj with h | h
        · exact List.mem_append_left [v] (pf.inv.closed j h c hc)
        · have hjv : j = v := List.mem_singleton.mp h
          rw [hjv] at hc
          exact List.mem_append_left [v] (pf.complete c hc c (Reaches.refl c))
      · rw [List.pairwise_append]
        refine ⟨pf.inv.ordered, List.pairwise_singleton _ v, ?_⟩
        intro a ha b hb
        rcases List.mem_singleton.mp hb with rfl
        intro hmem
        exact hvnot2 (pf.inv.closed a ha b hmem)

/-- The `topo` list of `build_topo(root)` from empty accumulators:
exactly the ancestors of `root`, each once, operands always before
consumers. -/
theorem buildTopo_spec (g : Graph α) (hwf : Wf g) (root : Nat) :
    (∀ x, x ∈ buildTopo g root ↔ Reaches g root x) ∧
    (buildTopo g root).Nodup ∧
    (∀ j ∈ buildTopo g root, ∀ c ∈ prevList g j, c ∈ buildTopo g root) ∧
    (buildTopo g root).Pairwise (fun a b => b ∉ prevList g a) := by
  have p : DfsPost g root ⟨[], []⟩ (buildTopoF g (root + 1) root ⟨[], []⟩) :=
    dfs_main g hwf (root + 1) root ⟨[], []⟩ (Nat.lt_succ_self root)
      ⟨List.nodup_nil, fun x hx => absurd hx (List.not_mem_nil x),
        fun j hj => absurd hj (List.not_mem_nil j),
        List.Pairwise.nil⟩
      (fun x hx => absurd hx (List.not_mem_nil x))
  have htopo : buildTopo g root = (buildTopoF g (root + 1) root ⟨[], []⟩).topo := rfl
  obtain ⟨Δ, hΔ, hΔp⟩ := p.grow
  refine ⟨fun x => ⟨fun hx => ?_, fun hx => ?_⟩, p.inv.nodup, p.inv.closed, p.inv.ordered⟩
  · rw [htopo, hΔ] at hx
    exact (hΔp x (by simpa using hx)).2.2
  · rw [htopo]
    exact p.complete x hx

/-- C2: the `topo` list built by `build_topo` inside `backward()`
contains every ancestor of the output (including the output) exactly
once, and every operand occurs strictly before every node consuming it. -/
theorem build_topo_topological_order (g : Graph α) (hwf : Wf g) (root : Nat) :
    (∀ x, x ∈ buildTopo g root ↔ Reaches g root x) ∧
    (buildTopo g root).Nodup ∧
    (∀ pre j post, buildTopo g root = pre ++ j :: post →
      ∀ c ∈ prevList g j, c ∈ pre) := by
  obtain ⟨hmem, hnd, hclosed, hord⟩ := buildTopo_spec g hwf root
  refine ⟨hmem, hnd, fun pre j post hsplit c hc => ?_⟩
  have hj : j ∈ buildTopo g root := by
    rw [hsplit]
    exact List.mem_append_right pre (List.mem_cons_self j post)
  have hct : c ∈ buildTopo g root := hclosed j hj c hc
  have hcj : c ≠ j := Nat.ne_of_lt (prevList_lt hwf hc)
  have hcpost : c ∉ post := by
    intro hcp
    rw [hsplit] at hord
    have h2 := (List.pairwise_append.mp hord).2.1
    have h3 := (List.pairwise_cons.mp h2).1
    exact h3 c hcp hc
  rw [hsplit] at hct
  rcases List.mem_append.mp hct with h | h
  · exact h
  · rcases List.mem_cons.mp h with h' | h'
    · exact absurd h' hcj
    · exact absurd h' hcpost

instance (g : Graph α) : Decidable (Wf g) :=
  decidable_of_iff (∀ v < g.length, ∀ c ∈ prevList g v, c < v) Iff.rfl

/-- An example heap `w = x*y + x` for the hypotheses of
`build_topo_topological_order`. -/
def topoExample : Graph ℚ :=
  [⟨3, 0, .leaf⟩, ⟨5, 0, .leaf⟩, ⟨15, 0, .mul 0 1⟩, ⟨18, 0, .add 2 0⟩]

/-- Concrete instance for the hypothesis of
`build_topo_topological_order`. -/
theorem build_topo_topological_order_witness :
    Wf topoExample ∧
    ((∀ x, x ∈ buildTopo topoExample 3 ↔ Reaches topoExample 3 x) ∧
      (buildTopo topoExample 3).Nodup ∧
      (∀ pre j post, buildTopo topoExample 3 = pre ++ j :: post →
        ∀ c ∈ prevList topoExample j, c ∈ pre)) :=
  ⟨by decide, build_topo_topological_order topoExample (by decide) 3⟩

/-- The total amount that the `_backward` closure of consumer `j` adds to
the grad accumulator of node `x`: the local partial derivative times
`j`'s grad (under the grad assignment `γ`), summed over the operand slots
of `j` that are `x`. -/
def localSum (M : MathFuns α) (g : Graph α) (γ : Nat → α) (j x : Nat) : α :=
  match opAt g j with
  | .leaf => 0
  | .add a b => (if a = x then 1 * γ j else 0) + (if b = x then 1 * γ j else 0)
  | .mul a b =>
    (if a = x then dataAt g b * γ j else 0) + (if b = x then dataAt g a * γ j else 0)
  | .powi a d => if a = x then (d : α) * dataAt g a ^ (d - 1) * γ j else 0
  | .powf a p => if a = x then p * M.rpow (dataAt g a) (p - 1) * γ j else 0
  | .relu a => if a = x then (if 0 < dataAt g a then 1 * γ j else 0) else 0
  | .tanh a => if a = x then (1 - dataAt g j ^ 2) * γ j else 0
  | .sigm a => if a = x then dataAt g j * (1 - dataAt g j) * γ j else 0
  | .sin a => if a = x then M.cos (dataAt g a) * γ j else 0
  | .cos a => if a = x then -M.sin (dataAt g a) * γ j else 0
  | .exp a => if a = x then dataAt g j * γ j else 0

theorem localSum_congr (M : MathFuns α) {g1 g2 : Graph α} {γ1 γ2 : Nat → α} (j x : Nat)
    (hop : opAt g1 j = opAt g2 j) (hdata : ∀ i, dataAt g1 i = dataAt g2 i)
    (hγ : γ1 j = γ2 j) :
    localSum M g1 γ1 j x = localSum M g2 γ2 j x := by
  unfold localSum
  rw [hop]
  cases opAt g2 j <;> simp only [hdata, hγ]

theorem localSum_zero_of_grad_zero (M : MathFuns α) (g : Graph α) {γ : Nat → α}
    (j x : Nat) (hγ : γ j = 0) : localSum M g γ j x = 0 := by
  unfold localSum
  cases opAt g j <;> simp [hγ]

theorem localSum_zero_of_not_child (M : MathFuns α) (g : Graph α) (γ : Nat → α)
    {j x : Nat} (hx : x ∉ (opAt g j).children) : localSum M g γ j x = 0 := by
  unfold localSum
  cases hop : opAt g j with
  | leaf => rfl
  | add a b =>
    rw [hop] at hx
    simp [Op.children] at hx
    dsimp only
    rw [if_neg (fun h => hx.1 h.symm), if_neg (fun h => hx.2 h.symm), add_zero]
  | mul a b =>
    rw [hop] at hx
    simp [Op.children] at hx
    dsimp only
    rw [if_neg (fun h => hx.1 h.symm), if_neg (fun h => hx.2 h.symm), add_zero]
  | powi a d =>
    rw [hop] at hx
    simp [Op.children] at hx
    dsimp only
    rw [if_neg (fun h => hx h.symm)]
  | powf a p =>
    rw [hop] at hx
    simp [Op.children] at hx
    dsimp only
    rw [if_neg (fun h => hx h.symm)]
  | relu a =>
    rw [hop] at hx
    simp [Op.children] at hx
    dsimp only
    rw [if_neg (fun h => hx h.symm)]
  | tanh a =>
    rw [hop] at hx
    simp [Op.children] at hx
    dsimp only
    rw [if_neg (fun h => hx h.symm)]
  | sigm a =>
    rw [hop] at hx
    simp [Op.children] at hx
    dsimp only
    rw [if_neg (fun h => hx h.symm)]
  | sin a =>
    rw [hop] at hx
    simp [Op.children] at hx
    dsimp only
    rw [if_neg (fun h => hx h.symm)]
  | cos a =>
    rw [hop] at hx
    simp [Op.children] at hx
    dsimp only
    rw [if_neg (fun h => hx h.symm)]
  | exp a =>
    rw [hop] at hx
    simp [Op.children] at hx
    dsimp only
    rw [if_neg (fun h => hx h.symm)]

theorem mem_children_iff_mem_prevList (g : Graph α) (v c : Nat) :
    c ∈ (opAt g v).children ↔ c ∈ prevList g v :=
  (List.mem_dedup).symm

theorem nodeBackward_dataAt (M : MathFuns α) (g : Graph α) (n : Nat) :
    ∀ i, dataAt (nodeBackward M g n) i = dataAt g i := by
  intro i
  cases hop : opAt g n <;> simp [nodeBackward, hop, dataAt_setGrad]

theorem nodeBackward_opAt (M : MathFuns α) (g : Graph α) (n : Nat) :
    ∀ i, opAt (nodeBackward M g n) i = opAt g i := by
  intro i
  cases hop : opAt g n <;> simp [nodeBackward, hop, opAt_setGrad]

theorem nodeBackward_length (M : MathFuns α) (g : Graph α) (n : Nat) :
    (nodeBackward M g n).length = g.length := by
  cases hop : opAt g n <;> simp [nodeBackward, hop, length_setGrad]

theorem nodeBackward_gradAt_not_child (M : MathFuns α) (g : Graph α) (n : Nat)
    {x : Nat} (hx : x ∉ (opAt g n).children) :
    gradAt (nodeBackward M g n) x = gradAt g x := by
  cases hop : opAt g n with
  | leaf => simp [nodeBackward, hop]
  | add a b =>
    rw [hop] at hx
    simp [Op.children] at hx
    simp [nodeBackward, hop, gradAt_setGrad, length_setGrad, hx.1, hx.2]
  | mul a b =>
    rw [hop] at hx
    simp [Op.children] at hx
    simp [nodeBackward, hop, gradAt_setGrad, length_setGrad, hx.1, hx.2]
  | powi a d =>
    rw [hop] at hx
    simp [Op.children] at hx
    simp [nodeBackward, hop, gradAt_setGrad, length_setGrad, hx]
  | powf a p =>
    rw [hop] at hx
    simp [Op.children] at hx
    simp [nodeBackward, hop, gradAt_setGrad, length_setGrad, hx]
  | relu a =>
    rw [hop] at hx
    simp [Op.children] at hx
    simp [nodeBackward, hop, gradAt_setGrad, length_setGrad, hx]
  | tanh a =>
    rw [hop] at hx
    simp [Op.children] at hx
    simp [nodeBackward, hop, gradAt_setGrad, length_setGrad, hx]
  | sigm a =>
    rw [hop] at hx
    simp [Op.children] at hx
    simp [nodeBackward, hop, gradAt_setGrad, length_setGrad, hx]
  | sin a =>
    rw [hop] at hx
    simp [Op.children] at hx
    simp [nodeBackward, hop, gradAt_setGrad, length_setGrad, hx]
  | cos a =>
    rw [hop] at hx
    simp [Op.children] at hx
    simp [nodeBackward, hop, gradAt_setGrad, length_setGrad, hx]
  | exp a =>
    rw [hop] at hx
    simp [Op.children] at hx
    simp [nodeBackward, hop, gradAt_setGrad, length_setGrad, hx]

/-- Running one `_backward` closure adds exactly `localSum` to every
grad accumulator, provided the node's operands have smaller indices (as
on every heap built by the `Value` constructors). -/
theorem nodeBackward_gradAt (M : MathFuns α) (g : Graph α) (n : Nat)
    (hn : n < g.length) (hlt : ∀ c ∈ (opAt g n).children, c < n) (x : Nat) :
    gradAt (nodeBackward M g n) x = gradAt g x + localSum M g (gradAt g) n x := by
  cases hop : opAt g n with
  | leaf =>
    simp [nodeBackward, hop, localSum]
  | add a b =>
    rw [hop] at hlt
    have ha : a < n := hlt a (by simp [Op.children])
    have hb : b < n := hlt b (by simp [Op.children])
    have halen : a < g.length := Nat.lt_trans ha hn
    have hblen : b < g.length := Nat.lt_trans hb hn
    have hna : ¬ n = a := fun h => Nat.lt_irrefl n (h ▸ ha)
    have hnb : ¬ n = b := fun h => Nat.lt_irrefl n (h ▸ hb)
    simp only [nodeBackward, hop]
    unfold localSum
    rw [hop]
    dsimp only
    simp only [gradAt_setGrad, length_setGrad, dataAt_setGrad, hna, false_and, if_false]
    by_cases hxb : x = b <;> by_cases hxa : x = a
    · have hba : b = a := hxb.symm.trans hxa
      simp [hxb, hxa, hba, halen, hblen]
      try ring
    · have hba : ¬ b = a := fun h => hxa (hxb.trans h)
      have hab : ¬ a = b := fun h => hba h.symm
      have hax : ¬ a = x := fun h => hxa h.symm
      simp [hxb, hxa, hba, hab, hax, halen, hblen]
      try ring
    · have hba : ¬ b = a := fun h => hxb (hxa.trans h.symm)
      have hab : ¬ a = b := fun h => hba h.symm
      have hbx : ¬ b = x := fun h => hxb h.symm
      simp [hxb, hxa, hba, hab, hbx, halen]
      try ring
    · have hax : ¬ a = x := fun h => hxa h.symm
      have hbx : ¬ b = x := fun h => hxb h.symm
      simp [hxb, hxa, hax, hbx]
  | mul a b =>
    rw [hop] at hlt
    have ha : a < n := hlt a (by simp [Op.children])
    have hb : b < n := hlt b (by simp [Op.children])
    have halen : a < g.length := Nat.lt_trans ha hn
    have hblen : b < g.length := Nat.lt_trans hb hn
    have hna : ¬ n = a := fun h => Nat.lt_irrefl n (h ▸ ha)
    have hnb : ¬ n = b := fun h => Nat.lt_irrefl n (h ▸ hb)
    simp only [nodeBackward, hop]
    unfold localSum
    rw [hop]
    dsimp only
    simp only [gradAt_setGrad, length_setGrad, dataAt_setGrad, hna, false_and, if_false]
    by_cases hxb : x = b <;> by_cases hxa : x = a
    · have hba : b = a := hxb.symm.trans hxa
      simp [hxb, hxa, hba, halen, hblen]
      try ring
    · have hba : ¬ b = a := fun h => hxa (hxb.trans h)
      have hab : ¬ a = b := fun h => hba h.symm
      have hax : ¬ a = x := fun h => hxa h.symm
      simp [hxb, hxa, hba, hab, hax, halen, hblen]
      try ring
    · have hba : ¬ b = a := fun h => hxb (hxa.trans h.symm)
      have hab : ¬ a = b := fun h => hba h.symm
      have hbx : ¬ b = x := fun h => hxb h.symm
      simp [hxb, hxa, hba, hab, hbx, halen]
      try ring
    · have hax : ¬ a = x := fun h => hxa h.symm
      have hbx : ¬ b = x := fun h => hxb h.symm
      simp [hxb, hxa, hax, hbx]
  | powi a d =>
    rw [hop] at hlt
    have ha : a < n := hlt a (by simp [Op.children])
    have halen : a < g.length := Nat.lt_trans ha hn
    simp only [nodeBackward, hop]
    unfold localSum
    rw [hop]
    dsimp only
    rw [gradAt_setGrad]
    by_cases hxa : x = a
    · simp [hxa, halen]
      try ring
    · have hax : ¬ a = x := fun h => hxa h.symm
      simp [hxa, hax]
  | powf a p =>
    rw [hop] at hlt
    have ha : a < n := hlt a (by simp [Op.children])
    have halen : a < g.length := Nat.lt_trans ha hn
    simp only [nodeBackward, hop]
    unfold localSum
    rw [hop]
    dsimp only
    rw [gradAt_setGrad]
    by_cases hxa : x = a
    · simp [hxa, halen]
      try ring
    · have hax : ¬ a = x := fun h => hxa h.symm
      simp [hxa, hax]
  | relu a =>
    rw [hop] at hlt
    have ha : a < n := hlt a (by simp [Op.children])
    have halen : a < g.length := Nat.lt_trans ha hn
    simp only [nodeBackward, hop]
    unfold localSum
    rw [hop]
    dsimp only
    rw [gradAt_setGrad]
    by_cases hxa : x = a
    · simp [hxa, halen]
      try ring
    · have hax : ¬ a = x := fun h => hxa h.symm
      simp [hxa, hax]
  | tanh a =>
    rw [hop] at hlt
    have ha : a < n := hlt a (by simp [Op.children])
    have halen : a < g.length := Nat.lt_trans ha hn
    simp only [nodeBackward, hop]
    unfold localSum
    rw [hop]
    dsimp only
    rw [gradAt_setGrad]
    by_cases hxa : x = a
    · simp [hxa, halen]
      try ring
    · have hax : ¬ a = x := fun h => hxa h.symm
      simp [hxa, hax]
  | sigm a =>
    rw [hop] at hlt
    have ha : a < n := hlt a (by simp [Op.children])
    have halen : a < g.length := Nat.lt_trans ha hn
    simp only [nodeBackward, hop]
    unfold localSum
    rw [hop]
    dsimp only
    rw [gradAt_setGrad]
    by_cases hxa : x = a
    · simp [hxa, halen]
      try ring
    · have hax : ¬ a = x := fun h => hxa h.symm
      simp [hxa, hax]
  | sin a =>
    rw [hop] at hlt
    have ha : a < n := hlt a (by simp [Op.children])
    have halen : a < g.length := Nat.lt_trans ha hn
    simp only [nodeBackward, hop]
    unfold localSum
    rw [hop]
    dsimp only
    rw [gradAt_setGrad]
    by_cases hxa : x = a
    · simp [hxa, halen]
      try ring
    · have hax : ¬ a = x := fun h => hxa h.symm
      simp [hxa, hax]
  | cos a =>
    rw [hop] at hlt
    have ha : a < n := hlt a (by simp [Op.children])
    have halen : a < g.length := Nat.lt_trans ha hn
    simp only [nodeBackward, hop]
    unfold localSum
    rw [hop]
    dsimp only
    rw [gradAt_setGrad]
    by_cases hxa : x = a
    · simp [hxa, halen]
      try ring
    · have hax : ¬ a = x := fun h => hxa h.symm
      simp [hxa, hax]
  | exp a =>
    rw [hop] at hlt
    have ha : a < n := hlt a (by simp [Op.children])
    have halen : a < g.length := Nat.lt_trans ha hn
    simp only [nodeBackward, hop]
    unfold localSum
    rw [hop]
    dsimp only
    rw [gradAt_setGrad]
    by_cases hxa : x = a
    · simp [hxa, halen]
      try ring
    · have hax : ¬ a = x := fun h => hxa h.symm
      simp [hxa, hax]

theorem powSafeAt_congr {g1 g2 : Graph α} (j : Nat)
    (hop : opAt g1 j = opAt g2 j) (hdata : ∀ i, dataAt g1 i = dataAt g2 i) :
    powSafeAt g1 j ↔ powSafeAt g2 j := by
  unfold powSafeAt
  rw [hop]
  cases opAt g2 j <;> simp [hdata]

theorem backwardE_foldl (M : MathFuns α) (g : Graph α) (L : List Nat)
    (hsafe : ∀ n ∈ L, powSafeAt g n) :
    ∀ h : Graph α, (∀ i, dataAt h i = dataAt g i) → (∀ i, opAt h i = opAt g i) →
    L.foldl (fun acc n => acc.bind fun h0 => nodeBackwardE M h0 n) (some h) =
      some (L.foldl (fun h0 n => nodeBackward M h0 n) h) := by
  induction L with
  | nil => intro h _ _; rfl
  | cons n rest ih =>
    intro h hdata hop
    have hs : powSafeAt h n :=
      (powSafeAt_congr n (hop n) hdata).mpr (hsafe n (List.mem_cons_self n rest))
    have hstep : nodeBackwardE M h n = some (nodeBackward M h n) := by
      rw [nodeBackwardE, if_pos hs]
    simp only [List.foldl_cons, Option.some_bind, hstep]
    exact ih (fun m hm => hsafe m (List.mem_cons_of_mem n hm)) (nodeBackward M h n)
      (fun i => (nodeBackward_dataAt M h n i).trans (hdata i))
      (fun i => (nodeBackward_opAt M h n i).trans (hop i))

/-- Whenever every `_backward` closure of the topological order completes
(`BackwardCompletes`), the raise-aware `backwardE` returns normally and
its result is exactly the heap computed by the total model `backward`. -/
theorem backwardE_eq_backward (M : MathFuns α) (g : Graph α) (root : Nat)
    (hsafe : BackwardCompletes g root) :
    backwardE M g root = some (backward M g root) := by
  unfold backwardE backward
  refine backwardE_foldl M g _ ?_ _ ?_ ?_
  · intro n hn
    exact hsafe n (List.mem_reverse.mp hn)
  · intro i
    exact dataAt_setGrad g root i 1
  · intro i
    exact opAt_setGrad g root i 1

/-- Sum of `f` over a list of consumer indices. -/
def sumOver (L : List Nat) (f : Nat → α) : α :=
  (L.map f).sum

theorem sumOver_nil (f : Nat → α) : sumOver [] f = 0 := rfl

theorem sumOver_append (L1 L2 : List Nat) (f : Nat → α) :
    sumOver (L1 ++ L2) f = sumOver L1 f + sumOver L2 f := by
  simp [sumOver]

theorem sumOver_congr (L : List Nat) {f1 f2 : Nat → α} (h : ∀ j ∈ L, f1 j = f2 j) :
    sumOver L f1 = sumOver L f2 := by
  unfold sumOver
  exact congrArg List.sum (List.map_congr_left h)

theorem sumOver_eq_zero (L : List Nat) {f : Nat → α} (h : ∀ j ∈ L, f j = 0) :
    sumOver L f = 0 := by
  unfold sumOver
  exact List.sum_eq_zero (fun x hx => by
    obtain ⟨j, hj, rfl⟩ := List.mem_map.mp hx
    exact h j hj)

/-- The invariant of the reverse-order `_backward` loop: after the
consumers in `done` have run, every grad accumulator holds its initial
value plus the contributions of the already-processed consumers. -/
theorem backward_fold (M : MathFuns α) (g : Graph α) (hwf : Wf g) (T : List Nat)
    (hnd : T.Nodup) (hclosed : ∀ j ∈ T, ∀ c ∈ prevList g j, c ∈ T)
    (hord : T.Pairwise (fun a b => b ∉ prevList g a))
    (hrange : ∀ x ∈ T, x < g.length) (γ0 : Nat → α) :
    ∀ (rest done : List Nat) (h : Graph α),
      T.reverse = done ++ rest →
      (∀ i, dataAt h i = dataAt g i) →
      (∀ i, opAt h i = opAt g i) →
      h.length = g.length →
      (∀ x, gradAt h x = γ0 x + sumOver done (fun j => localSum M h (gradAt h) j x)) →
      ((∀ i, dataAt (rest.foldl (fun h n => nodeBackward M h n) h) i = dataAt g i) ∧
        (∀ i, opAt (rest.foldl (fun h n => nodeBackward M h n) h) i = opAt g i) ∧
        (rest.foldl (fun h n => nodeBackward M h n) h).length = g.length ∧
        (∀ x, gradAt (rest.foldl (fun h n => nodeBackward M h n) h) x =
          γ0 x + sumOver (done ++ rest)
            (fun j => localSum M (rest.foldl (fun h n => nodeBackward M h n) h)
              (gradAt (rest.foldl (fun h n => nodeBackward M h n) h)) j x))) := by
  intro rest
  induction rest with
  | nil =>
    intro done h hsplit hdata hop hlen hinv
    refine ⟨hdata, hop, hlen, ?_⟩
    simpa using hinv
  | cons n rest' ih =>
    intro done h hsplit hdata hop hlen hinv
    have hnT : n ∈ T := by
      have : n ∈ T.reverse := by
        rw [hsplit]
        exact List.mem_append_right done (List.mem_cons_self n rest')
      exact List.mem_reverse.mp this
    have hnlen : n < g.length := hrange n hnT
    have hTsplit : T = rest'.reverse ++ n :: done.reverse := by
      have := congrArg List.reverse hsplit
      rw [List.reverse_reverse] at this
      rw [this, List.reverse_append, List.reverse_cons, List.append_assoc]
      simp
    have hchild_not_done : ∀ c ∈ prevList g n, c ∉ done := by
      intro c hc hcd
      rw [hTsplit] at hord
      have h2 := (List.pairwise_append.mp hord).2.1
      have h3 := (List.pairwise_cons.mp h2).1
      exact h3 c (List.mem_reverse.mpr hcd) hc
    have hchild_lt : ∀ c ∈ (opAt h n).children, c < n := by
      intro c hc
      rw [hop n] at hc
      exact prevList_lt hwf ((mem_children_iff_mem_prevList g n c).mp hc)
    have hstep : ∀ x, gradAt (nodeBackward M h n) x =
        gradAt h x + localSum M h (gradAt h) n x :=
      nodeBackward_gradAt M h n (hlen ▸ hnlen) hchild_lt
    set h1 := nodeBackward M h n with hh1
    have hdata1 : ∀ i, dataAt h1 i = dataAt g i := fun i =>
      (nodeBackward_dataAt M h n i).trans (hdata i)
    have hop1 : ∀ i, opAt h1 i = opAt g i := fun i =>
      (nodeBackward_opAt M h n i).trans (hop i)
    have hlen1 : h1.length = g.length := (nodeBackward_length M h n).trans hlen
    have hgrad_done : ∀ j ∈ done ++ [n], gradAt h1 j = gradAt h j := by
      intro j hj
      refine nodeBackward_gradAt_not_child M h n (fun hmem => ?_)
      rw [hop n] at hmem
      have hjprev : j ∈ prevList g n := (mem_children_iff_mem_prevList g n j).mp hmem
      rcases List.mem_append.mp hj with hjd | hjn
      · exact hchild_not_done j hjprev hjd
      · rcases List.mem_singleton.mp hjn with rfl
        exact Nat.lt_irrefl j (prevList_lt hwf hjprev)
    have hinv1 : ∀ x, gradAt h1 x =
        γ0 x + sumOver (done ++ [n]) (fun j => localSum M h1 (gradAt h1) j x) := by
      intro x
      rw [hstep x, hinv x, sumOver_append]
      have hterm : sumOver done (fun j => localSum M h1 (gradAt h1) j x) =
          sumOver done (fun j => localSum M h (gradAt h) j x) := by
        refine sumOver_congr done (fun j hj => ?_)
        exact localSum_congr M j x (nodeBackward_opAt M h n j)
          (nodeBackward_dataAt M h n) (hgrad_done j (List.mem_append_left [n] hj))
      rw [hterm]
      have hlast : sumOver [n] (fun j => localSum M h1 (gradAt h1) j x) =
          localSum M h (gradAt h) n x := by
        show localSum M h1 (gradAt h1) n x + 0 = localSum M h (gradAt h) n x
        rw [add_zero]
        exact localSum_congr M n x (nodeBackward_opAt M h n n)
          (nodeBackward_dataAt M h n)
          (hgrad_done n (List.mem_append_right done (List.mem_singleton_self n)))
      rw [hlast]
      ring
    have hrec := ih (done ++ [n]) h1
      (by rw [hsplit, List.append_assoc]; simp)
      hdata1 hop1 hlen1 hinv1
    have hlist : (done ++ [n]) ++ rest' = done ++ n :: rest' := by
      rw [List.append_assoc]
      simp
    have hfold : (n :: rest').foldl (fun h n => nodeBackward M h n) h =
        rest'.foldl (fun h n => nodeBackward M h n) h1 := by
      simp [List.foldl_cons, hh1]
    rw [hfold, ← hlist]
    exact hrec

/-- The full effect of `backward()` on a freshly built heap: data and
operation records are untouched, grads outside the ancestor set stay 0,
and every grad accumulator ends up holding its seed plus the sum of the
contributions of all its consumers. -/
theorem backward_spec (M : MathFuns α) (g : Graph α) (root : Nat)
    (hwf : Wf g) (hroot : root < g.length) (hgrad : ∀ i, gradAt g i = 0) :
    (∀ i, dataAt (backward M g root) i = dataAt g i) ∧
    (∀ i, opAt (backward M g root) i = opAt g i) ∧
    (backward M g root).length = g.length ∧
    (∀ j, j ∉ buildTopo g root → gradAt (backward M g root) j = 0) ∧
    (∀ x, gradAt (backward M g root) x =
      (if x = root then 1 else 0) +
        ∑ j ∈ Finset.range g.length,
          localSum M (backward M g root) (gradAt (backward M g root)) j x) := by
  obtain ⟨hmem, hnd, hclosed, hord⟩ := buildTopo_spec g hwf root
  set T := buildTopo g root with hT
  have hrange : ∀ x ∈ T, x < g.length := fun x hx =>
    Nat.lt_of_le_of_lt (reaches_le hwf ((hmem x).mp hx)) hroot
  set g1 := setGrad g root 1 with hg1
  have hγ0 : ∀ x, gradAt g1 x = (if x = root then (1 : α) else 0) := by
    intro x
    rw [hg1, gradAt_setGrad]
    by_cases hx : x = root
    · simp [hx, hroot]
    · simp [hx, hgrad x]
  have hbdef : backward M g root = T.reverse.foldl (fun h n => nodeBackward M h n) g1 := rfl
  obtain ⟨hd, ho, hl, hg⟩ :=
    backward_fold M g hwf T hnd hclosed hord hrange
      (fun x => if x = root then (1 : α) else 0) T.reverse [] g1
      (by simp)
      (fun i => dataAt_setGrad g root i 1)
      (fun i => opAt_setGrad g root i 1)
      (length_setGrad g root 1)
      (by
        intro x
        rw [hγ0 x, sumOver_nil, add_zero])
  rw [← hbdef] at hd ho hl hg
  set h' := backward M g root with hh'
  have hzero : ∀ j, j ∉ T → gradAt h' j = 0 := by
    intro j hj
    rw [hg j]
    have hjr : ¬ j = root := fun he => hj (he ▸ (hmem root).mpr (Reaches.refl root))
    have hsz : sumOver ([] ++ T.reverse)
        (fun k => localSum M h' (gradAt h') k j) = 0 := by
      refine sumOver_eq_zero _ (fun k hk => ?_)
      have hkT : k ∈ T := by
        rw [List.nil_append] at hk
        exact List.mem_reverse.mp hk
      refine localSum_zero_of_not_child M h' (gradAt h') (fun hmemc => ?_)
      rw [ho k] at hmemc
      exact hj (hclosed k hkT j ((mem_children_iff_mem_prevList g k j).mp hmemc))
    rw [hsz, add_zero]
    simp [hjr]
  refine ⟨hd, ho, hl, hzero, ?_⟩
  intro x
  rw [hg x]
  congr 1
  have e1 : sumOver ([] ++ T.reverse) (fun j => localSum M h' (gradAt h') j x) =
      sumOver T (fun j => localSum M h' (gradAt h') j x) := by
    unfold sumOver
    rw [List.nil_append, List.map_reverse, List.sum_reverse]
  have e2 : sumOver T (fun j => localSum M h' (gradAt h') j x) =
      T.toFinset.sum (fun j => localSum M h' (gradAt h') j x) :=
    (List.sum_toFinset _ hnd).symm
  have e3 : T.toFinset.sum (fun j => localSum M h' (gradAt h') j x) =
      (Finset.range g.length).sum (fun j => localSum M h' (gradAt h') j x) := by
    refine Finset.sum_subset ?_ ?_
    · intro j hjm
      rw [Finset.mem_range]
      exact hrange j (List.mem_toFinset.mp hjm)
    · intro j _ hjT
      exact localSum_zero_of_grad_zero M h' j x
        (hzero j (fun hmemT => hjT (List.mem_toFinset.mpr hmemT)))
  rw [e1, e2, e3]

/-- C1: on a freshly built heap (all grads 0), whenever `backward()`
returns — i.e. no `_backward` closure of the topological order raises
`ZeroDivisionError` or leaves the reals (`BackwardCompletes`) — it seeds
the output's grad with 1 and propagates in reverse topological order so
that, upon return, every node's grad equals its seed plus the sum over
all consuming nodes of (local partial derivative) × (consumer's grad). -/
theorem backward_grad_is_sum_over_consumers (M : MathFuns α) (g : Graph α) (root : Nat)
    (hwf : Wf g) (hroot : root < g.length) (hgrad : ∀ i, gradAt g i = 0)
    (hsafe : BackwardCompletes g root) :
    backwardE M g root = some (backward M g root) ∧
    ∀ x, gradAt (backward M g root) x =
      (if x = root then 1 else 0) +
        ∑ j ∈ Finset.range g.length,
          localSum M (backward M g root) (gradAt (backward M g root)) j x :=
  ⟨backwardE_eq_backward M g root hsafe,
    (backward_spec M g root hwf hroot hgrad).2.2.2.2⟩

theorem topoExample_grads_zero : ∀ i, gradAt topoExample i = 0
  | 0 => rfl
  | 1 => rfl
  | 2 => rfl
  | 3 => rfl
  | _ + 4 => rfl

/-- Expressions over the `Value` operations {addition, multiplication,
power by an integer constant}; variables `var j` stand for the shared
leaf `Value` objects `0 .. k-1`. -/
inductive Expr : Type where
  | var (j : Nat)
  | add (a b : Expr)
  | mul (a b : Expr)
  | powi (a : Expr) (d : ℤ)
  | powf (a : Expr) (p : ℝ)

/-- Mathematical value of an expression in an environment of leaf data
(float-exponent powers are real exponentiation). -/
noncomputable def Expr.eval (env : Nat → ℝ) : Expr → ℝ
  | .var j => env j
  | .add a b => a.eval env + b.eval env
  | .mul a b => a.eval env * b.eval env
  | .powi a d => a.eval env ^ d
  | .powf a p => a.eval env ^ p

/-- Number of heap nodes an expression construction allocates. -/
def Expr.sz : Expr → Nat
  | .var _ => 0
  | .add a b => a.sz + b.sz + 1
  | .mul a b => a.sz + b.sz + 1
  | .powi a _ => a.sz + 1
  | .powf a _ => a.sz + 1

/-- Heap index of the node holding an expression's value, when its
segment is allocated starting at `base`. -/
def Expr.outId : Expr → Nat → Nat
  | .var j, _ => j
  | .add a b, base => base + a.sz + b.sz
  | .mul a b, base => base + a.sz + b.sz
  | .powi a _, base => base + a.sz
  | .powf a _, base => base + a.sz

/-- The nodes an expression construction appends to the heap, when its
segment is allocated starting at `base`. -/
noncomputable def Expr.nodes (env : Nat → ℝ) : Expr → Nat → Graph ℝ
  | .var _, _ => []
  | .add a b, base =>
    a.nodes env base ++ b.nodes env (base + a.sz) ++
      [⟨a.eval env + b.eval env, 0, .add (a.outId base) (b.outId (base + a.sz))⟩]
  | .mul a b, base =>
    a.nodes env base ++ b.nodes env (base + a.sz) ++
      [⟨a.eval env * b.eval env, 0, .mul (a.outId base) (b.outId (base + a.sz))⟩]
  | .powi a d, base =>
    a.nodes env base ++ [⟨a.eval env ^ d, 0, .powi (a.outId base) d⟩]
  | .powf a p, base =>
    a.nodes env base ++ [⟨a.eval env ^ p, 0, .powf (a.outId base) p⟩]

/-- Variable `j` occurs in the expression. -/
def Expr.VarIn (j : Nat) : Expr → Prop
  | .var i => j = i
  | .add a b => Expr.VarIn j a ∨ Expr.VarIn j b
  | .mul a b => Expr.VarIn j a ∨ Expr.VarIn j b
  | .powi a _ => Expr.VarIn j a
  | .powf a _ => Expr.VarIn j a

/-- Every integer power subterm has a nonzero base or a positive
exponent, and every float power subterm a positive base, so that neither
the construction nor the backward pass can raise `ZeroDivisionError` or
leave the reals, and the derivative exists.  (The claim's randomized
scalar inputs avoid the measure-zero zero/negative-base corners.) -/
def Expr.PowOk (env : Nat → ℝ) : Expr → Prop
  | .var _ => True
  | .add a b => a.PowOk env ∧ b.PowOk env
  | .mul a b => a.PowOk env ∧ b.PowOk env
  | .powi a d => a.PowOk env ∧ (a.eval env ≠ 0 ∨ 0 < d)
  | .powf a _ => a.PowOk env ∧ 0 < a.eval env

/-- The mathematical partial derivative of an expression with respect to
variable `i`. -/
noncomputable def Expr.pderiv (env : Nat → ℝ) (i : Nat) : Expr → ℝ
  | .var j => if j = i then 1 else 0
  | .add a b => a.pderiv env i + b.pderiv env i
  | .mul a b => a.pderiv env i * b.eval env + a.eval env * b.pderiv env i
  | .powi a d => (d : ℝ) * a.eval env ^ (d - 1) * a.pderiv env i
  | .powf a p => p * a.eval env ^ (p - 1) * a.pderiv env i

/-- `MathR`'s float-power semantics is real exponentiation. -/
theorem MathR_rpow (x y : ℝ) : MathR.rpow x y = x ^ y := rfl

/-- The Python construction of an expression over existing `Value`
objects: operands are evaluated left to right, each operator appends one
node; `**` may raise (`none`). -/
noncomputable def buildE (g : Graph ℝ) : Expr → Option (Graph ℝ × Nat)
  | .var j => some (g, j)
  | .add a b => do
    let p1 ← buildE g a
    let p2 ← buildE p1.1 b
    some (vadd p2.1 p1.2 p2.2)
  | .mul a b => do
    let p1 ← buildE g a
    let p2 ← buildE p1.1 b
    some (vmul p2.1 p1.2 p2.2)
  | .powi a d => do
    let p1 ← buildE g a
    vpow p1.1 p1.2 d
  | .powf a p => do
    let p1 ← buildE g a
    vpowf MathR p1.1 p1.2 p

/-- The `k` leaf `Value` objects holding the inputs. -/
def leafGraph (k : Nat) (env : Nat → α) : Graph α :=
  (List.range k).map (fun j => ⟨env j, 0, .leaf⟩)

theorem leafGraph_length (k : Nat) (env : Nat → α) : (leafGraph k env).length = k := by
  simp [leafGraph]

theorem nodes_length (env : Nat → ℝ) (e : Expr) (base : Nat) :
    (e.nodes env base).length = e.sz := by
  induction e generalizing base with
  | var j => rfl
  | add a b iha ihb => simp [Expr.nodes, Expr.sz, iha, ihb]; omega
  | mul a b iha ihb => simp [Expr.nodes, Expr.sz, iha, ihb]; omega
  | powi a d iha => simp [Expr.nodes, Expr.sz, iha]
  | powf a p iha => simp [Expr.nodes, Expr.sz, iha]

theorem outId_lt (e : Expr) {K base : Nat} (hvar : ∀ j, Expr.VarIn j e → j < K)
    (hK : K ≤ base) : e.outId base < base + e.sz := by
  cases e with
  | var j =>
    have hj : j < K := hvar j rfl
    have : j < base := Nat.lt_of_lt_of_le hj hK
    simp [Expr.outId, Expr.sz] <;> omega
  | add a b => simp [Expr.outId, Expr.sz] <;> omega
  | mul a b => simp [Expr.outId, Expr.sz] <;> omega
  | powi a d => simp [Expr.outId, Expr.sz] <;> omega
  | powf a p => simp [Expr.outId, Expr.sz] <;> omega

theorem opAt_append_right (g t : Graph α) (j : Nat) (h : g.length ≤ j) :
    opAt (g ++ t) j = opAt t (j - g.length) := by
  unfold opAt
  rw [List.getElem?_append]
  simp [Nat.not_lt.mpr h]

theorem dataAt_leafGraph (k : Nat) (env : Nat → α) {j : Nat} (hj : j < k) :
    dataAt (leafGraph k env) j = env j := by
  unfold dataAt leafGraph
  rw [List.getElem?_map, List.getElem?_range hj]
  rfl

theorem opAt_leafGraph (k : Nat) (env : Nat → α) {j : Nat} (hj : j < k) :
    opAt (leafGraph k env) j = .leaf := by
  unfold opAt leafGraph
  rw [List.getElem?_map, List.getElem?_range hj]
  rfl

/-- The data stored at the out node of a freshly placed segment is the
mathematical value of the expression. -/
theorem data_out (env : Nat → ℝ) (e : Expr) (g : Graph ℝ)
    (hvar : ∀ j, Expr.VarIn j e → j < g.length ∧ dataAt g j = env j) :
    dataAt (g ++ e.nodes env g.length) (e.outId g.length) = e.eval env := by
  cases e with
  | var j =>
    obtain ⟨hj, hd⟩ := hvar j rfl
    show dataAt (g ++ []) j = env j
    rw [List.append_nil]
    exact hd
  | add a b =>
    show dataAt (g ++ (a.nodes env g.length ++ b.nodes env (g.length + a.sz) ++
      [⟨a.eval env + b.eval env, 0,
        .add (a.outId g.length) (b.outId (g.length + a.sz))⟩])) (g.length + a.sz + b.sz) =
      a.eval env + b.eval env
    have hre : g ++ (a.nodes env g.length ++ b.nodes env (g.length + a.sz) ++
        [⟨a.eval env + b.eval env, 0,
          .add (a.outId g.length) (b.outId (g.length + a.sz))⟩]) =
        (g ++ a.nodes env g.length ++ b.nodes env (g.length + a.sz)) ++
          (⟨a.eval env + b.eval env, 0,
            .add (a.outId g.length) (b.outId (g.length + a.sz))⟩ : VNode ℝ) :: [] := by
      simp [List.append_assoc]
    rw [hre]
    have hlen : (g ++ a.nodes env g.length ++ b.nodes env (g.length + a.sz)).length =
        g.length + a.sz + b.sz := by
      simp [nodes_length]
      omega
    rw [← hlen, dataAt_append_self]
  | mul a b =>
    show dataAt (g ++ (a.nodes env g.length ++ b.nodes env (g.length + a.sz) ++
      [⟨a.eval env * b.eval env, 0,
        .mul (a.outId g.length) (b.outId (g.length + a.sz))⟩])) (g.length + a.sz + b.sz) =
      a.eval env * b.eval env
    have hre : g ++ (a.nodes env g.length ++ b.nodes env (g.length + a.sz) ++
        [⟨a.eval env * b.eval env, 0,
          .mul (a.outId g.length) (b.outId (g.length + a.sz))⟩]) =
        (g ++ a.nodes env g.length ++ b.nodes env (g.length + a.sz)) ++
          (⟨a.eval env * b.eval env, 0,
            .mul (a.outId g.length) (b.outId (g.length + a.sz))⟩ : VNode ℝ) :: [] := by
      simp [List.append_assoc]
    rw [hre]
    have hlen : (g ++ a.nodes env g.length ++ b.nodes env (g.length + a.sz)).length =
        g.length + a.sz + b.sz := by
      simp [nodes_length]
      omega
    rw [← hlen, dataAt_append_self]
  | powi a d =>
    show dataAt (g ++ (a.nodes env g.length ++
      [⟨a.eval env ^ d, 0, .powi (a.outId g.length) d⟩])) (g.length + a.sz) =
      a.eval env ^ d
    have hre : g ++ (a.nodes env g.length ++
        [⟨a.eval env ^ d, 0, .powi (a.outId g.length) d⟩]) =
        (g ++ a.nodes env g.length) ++
          (⟨a.eval env ^ d, 0, .powi (a.outId g.length) d⟩ : VNode ℝ) :: [] := by
      simp [List.append_assoc]
    rw [hre]
    have hlen : (g ++ a.nodes env g.length).length = g.length + a.sz := by
      simp [nodes_length]
    rw [← hlen, dataAt_append_self]
  | powf a p =>
    show dataAt (g ++ (a.nodes env g.length ++
      [⟨a.eval env ^ p, 0, .powf (a.outId g.length) p⟩])) (g.length + a.sz) =
      a.eval env ^ p
    have hre : g ++ (a.nodes env g.length ++
        [⟨a.eval env ^ p, 0, .powf (a.outId g.length) p⟩]) =
        (g ++ a.nodes env g.length) ++
          (⟨a.eval env ^ p, 0, .powf (a.outId g.length) p⟩ : VNode ℝ) :: [] := by
      simp [List.append_assoc]
    rw [hre]
    have hlen : (g ++ a.nodes env g.length).length = g.length + a.sz := by
      simp [nodes_length]
    rw [← hlen, dataAt_append_self]

/-- The out-node data survives further appends to the heap. -/
theorem data_out_mid (env : Nat → ℝ) (e : Expr) (g rest : Graph ℝ)
    (hvar : ∀ j, Expr.VarIn j e → j < g.length ∧ dataAt g j = env j) :
    dataAt ((g ++ e.nodes env g.length) ++ rest) (e.outId g.length) = e.eval env := by
  rw [dataAt_append_lt]
  · exact data_out env e g hvar
  · have := outId_lt e (fun j hj => (hvar j hj).1) (Nat.le_refl g.length)
    simpa [nodes_length] using this

/-- The Python construction succeeds under `PowOk` and produces exactly
the segment `nodes` appended to the heap, returning the out node. -/
theorem buildE_eq (env : Nat → ℝ) :
    ∀ (e : Expr) (g : Graph ℝ),
      (∀ j, Expr.VarIn j e → j < g.length ∧ dataAt g j = env j) →
      e.PowOk env →
      buildE g e = some (g ++ e.nodes env g.length, e.outId g.length) := by
  intro e
  induction e with
  | var j =>
    intro g hvar hpow
    simp [buildE, Expr.nodes, Expr.outId]
  | add a b iha ihb =>
    intro g hvar hpow
    have h1 := iha g (fun j hj => hvar j (Or.inl hj)) hpow.1
    have hlen1 : (g ++ a.nodes env g.length).length = g.length + a.sz := by
      simp [nodes_length]
    have hvarb : ∀ j, Expr.VarIn j b →
        j < (g ++ a.nodes env g.length).length ∧
          dataAt (g ++ a.nodes env g.length) j = env j := by
      intro j hj
      obtain ⟨hjl, hjd⟩ := hvar j (Or.inr hj)
      refine ⟨by rw [hlen1]; omega, ?_⟩
      rw [dataAt_append_lt _ _ _ hjl]
      exact hjd
    have h2 := ihb (g ++ a.nodes env g.length) hvarb hpow.2
    rw [hlen1] at h2
    have hda : dataAt ((g ++ a.nodes env g.length) ++ b.nodes env (g.length + a.sz))
        (a.outId g.length) = a.eval env := by
      have := data_out_mid env a g (b.nodes env (g.length + a.sz))
        (fun j hj => hvar j (Or.inl hj))
      exact this
    have hdb : dataAt ((g ++ a.nodes env g.length) ++ b.nodes env (g.length + a.sz))
        (b.outId (g.length + a.sz)) = b.eval env := by
      have := data_out env b (g ++ a.nodes env g.length) hvarb
      rw [hlen1] at this
      exact this
    simp only [buildE]
    rw [h1]
    simp only [Option.bind_eq_bind, Option.some_bind]
    rw [h2]
    simp only [Option.some_bind]
    unfold vadd
    rw [hda, hdb]
    simp only [Option.some.injEq, Prod.mk.injEq]
    constructor
    · simp [Expr.nodes, List.append_assoc]
    · simp [Expr.outId, nodes_length]
      omega
  | mul a b iha ihb =>
    intro g hvar hpow
    have h1 := iha g (fun j hj => hvar j (Or.inl hj)) hpow.1
    have hlen1 : (g ++ a.nodes env g.length).length = g.length + a.sz := by
      simp [nodes_length]
    have hvarb : ∀ j, Expr.VarIn j b →
        j < (g ++ a.nodes env g.length).length ∧
          dataAt (g ++ a.nodes env g.length) j = env j := by
      intro j hj
      obtain ⟨hjl, hjd⟩ := hvar j (Or.inr hj)
      refine ⟨by rw [hlen1]; omega, ?_⟩
      rw [dataAt_append_lt _ _ _ hjl]
      exact hjd
    have h2 := ihb (g ++ a.nodes env g.length) hvarb hpow.2
    rw [hlen1] at h2
    have hda : dataAt ((g ++ a.nodes env g.length) ++ b.nodes env (g.length + a.sz))
        (a.outId g.length) = a.eval env := by
      exact data_out_mid env a g (b.nodes env (g.length + a.sz))
        (fun j hj => hvar j (Or.inl hj))
    have hdb : dataAt ((g ++ a.nodes env g.length) ++ b.nodes env (g.length + a.sz))
        (b.outId (g.length + a.sz)) = b.eval env := by
      have := data_out env b (g ++ a.nodes env g.length) hvarb
      rw [hlen1] at this
      exact this
    simp only [buildE]
    rw [h1]
    simp only [Option.bind_eq_bind, Option.some_bind]
    rw [h2]
    simp only [Option.some_bind]
    unfold vmul
    rw [hda, hdb]
    simp only [Option.some.injEq, Prod.mk.injEq]
    constructor
    · simp [Expr.nodes, List.append_assoc]
    · simp [Expr.outId, nodes_length]
      omega
  | powi a d iha =>
    intro g hvar hpow
    have h1 := iha g (fun j hj => hvar j hj) hpow.1
    have hda : dataAt (g ++ a.nodes env g.length) (a.outId g.length) = a.eval env :=
      data_out env a g (fun j hj => hvar j hj)
    simp only [buildE]
    rw [h1]
    simp only [Option.bind_eq_bind, Option.some_bind]
    unfold vpow
    rw [hda]
    have hcond : ¬ (a.eval env = 0 ∧ d < 0) := by
      rcases hpow.2 with hne | hpos
      · exact fun hc => hne hc.1
      · exact fun hc => absurd hpos (Int.not_lt.mpr (Int.le_of_lt hc.2))
    rw [if_neg hcond]
    simp only [Option.some.injEq, Prod.mk.injEq]
    constructor
    · simp [Expr.nodes, List.append_assoc]
    · simp [Expr.outId, nodes_length]
  | powf a p iha =>
    intro g hvar hpow
    have h1 := iha g (fun j hj => hvar j hj) hpow.1
    have hda : dataAt (g ++ a.nodes env g.length) (a.outId g.length) = a.eval env :=
      data_out env a g (fun j hj => hvar j hj)
    simp only [buildE]
    rw [h1]
    simp only [Option.bind_eq_bind, Option.some_bind]
    unfold vpowf
    rw [hda]
    have hcond : ¬ (a.eval env = 0 ∧ p < 0) := fun hc => (ne_of_gt hpow.2) hc.1
    rw [if_neg hcond]
    simp only [MathR_rpow, Option.some.injEq, Prod.mk.injEq]
    constructor
    · simp [Expr.nodes, List.append_assoc]
    · simp [Expr.outId, nodes_length]

theorem wf_append_singleton (g : Graph α) (n : VNode α) (hwf : Wf g)
    (hc : ∀ c ∈ n.op.children, c < g.length) : Wf (g ++ [n]) := by
  intro v hv c hcc
  rcases Nat.lt_or_ge v g.length with h | h
  · rw [prevList, opAt_append_lt _ _ _ h] at hcc
    exact hwf v h c hcc
  · have hvlen : v = g.length := by
      simp at hv
      omega
    subst hvlen
    rw [prevList, opAt_append_self] at hcc
    exact hc c (List.mem_dedup.mp hcc)

theorem wf_leafGraph (k : Nat) (env : Nat → α) : Wf (leafGraph k env) := by
  intro v hv c hcc
  rw [leafGraph_length] at hv
  rw [prevList, opAt_leafGraph k env hv] at hcc
  exact absurd hcc (by simp [Op.children])

/-- Building an expression on a well-formed heap keeps it well-formed. -/
theorem wf_buildE (env : Nat → ℝ) :
    ∀ (e : Expr) (g : Graph ℝ), Wf g → (∀ j, Expr.VarIn j e → j < g.length) →
      Wf (g ++ e.nodes env g.length) := by
  intro e
  induction e with
  | var j =>
    intro g hwf _
    simpa [Expr.nodes] using hwf
  | add a b iha ihb =>
    intro g hwf hvar
    have w1 : Wf (g ++ a.nodes env g.length) := iha g hwf (fun j hj => hvar j (Or.inl hj))
    have hlen1 : (g ++ a.nodes env g.length).length = g.length + a.sz := by
      simp [nodes_length]
    have w2 : Wf ((g ++ a.nodes env g.length) ++ b.nodes env (g.length + a.sz)) := by
      have := ihb (g ++ a.nodes env g.length) w1
        (fun j hj => by rw [hlen1]; exact Nat.lt_of_lt_of_le (hvar j (Or.inr hj)) (by omega))
      rw [hlen1] at this
      exact this
    have hlen2 : ((g ++ a.nodes env g.length) ++ b.nodes env (g.length + a.sz)).length =
        g.length + a.sz + b.sz := by
      simp [nodes_length]
      omega
    have w3 : Wf (((g ++ a.nodes env g.length) ++ b.nodes env (g.length + a.sz)) ++
        [⟨a.eval env + b.eval env, 0,
          .add (a.outId g.length) (b.outId (g.length + a.sz))⟩]) := by
      refine wf_append_singleton _ _ w2 ?_
      intro c hcm
      simp [Op.children] at hcm
      rw [hlen2]
      rcases hcm with rfl | rfl
      · have := outId_lt a (fun j hj => hvar j (Or.inl hj)) (Nat.le_refl g.length)
        omega
      · have := outId_lt b (fun j hj => hvar j (Or.inr hj))
          (show g.length ≤ g.length + a.sz by omega)
        omega
    have hre : ((g ++ a.nodes env g.length) ++ b.nodes env (g.length + a.sz)) ++
        [⟨a.eval env + b.eval env, 0,
          .add (a.outId g.length) (b.outId (g.length + a.sz))⟩] =
        g ++ (Expr.add a b).nodes env g.length := by
      simp [Expr.nodes, List.append_assoc]
    rw [hre] at w3
    exact w3
  | mul a b iha ihb =>
    intro g hwf hvar
    have w1 : Wf (g ++ a.nodes env g.length) := iha g hwf (fun j hj => hvar j (Or.inl hj))
    have hlen1 : (g ++ a.nodes env g.length).length = g.length + a.sz := by
      simp [nodes_length]
    have w2 : Wf ((g ++ a.nodes env g.length) ++ b.nodes env (g.length + a.sz)) := by
      have := ihb (g ++ a.nodes env g.length) w1
        (fun j hj => by rw [hlen1]; exact Nat.lt_of_lt_of_le (hvar j (Or.inr hj)) (by omega))
      rw [hlen1] at this
      exact this
    have hlen2 : ((g ++ a.nodes env g.length) ++ b.nodes env (g.length + a.sz)).length =
        g.length + a.sz + b.sz := by
      simp [nodes_length]
      omega
    have w3 : Wf (((g ++ a.nodes env g.length) ++ b.nodes env (g.length + a.sz)) ++
        [⟨a.eval env * b.eval env, 0,
          .mul (a.outId g.length) (b.outId (g.length + a.sz))⟩]) := by
      refine wf_append_singleton _ _ w2 ?_
      intro c hcm
      simp [Op.children] at hcm
      rw [hlen2]
      rcases hcm with rfl | rfl
      · have := outId_lt a (fun j hj => hvar j (Or.inl hj)) (Nat.le_refl g.length)
        omega
      · have := outId_lt b (fun j hj => hvar j (Or.inr hj))
          (show g.length ≤ g.length + a.sz by omega)
        omega
    have hre : ((g ++ a.nodes env g.length) ++ b.nodes env (g.length + a.sz)) ++
        [⟨a.eval env * b.eval env, 0,
          .mul (a.outId g.length) (b.outId (g.length + a.sz))⟩] =
        g ++ (Expr.mul a b).nodes env g.length := by
      simp [Expr.nodes, List.append_assoc]
    rw [hre] at w3
    exact w3
  | powi a d iha =>
    intro g hwf hvar
    have w1 : Wf (g ++ a.nodes env g.length) := iha g hwf (fun j hj => hvar j hj)
    have hlen1 : (g ++ a.nodes env g.length).length = g.length + a.sz := by
      simp [nodes_length]
    have w3 : Wf ((g ++ a.nodes env g.length) ++
        [⟨a.eval env ^ d, 0, .powi (a.outId g.length) d⟩]) := by
      refine wf_append_singleton _ _ w1 ?_
      intro c hcm
      simp [Op.children] at hcm
      rw [hlen1, hcm]
      exact outId_lt a (fun j hj => hvar j hj) (Nat.le_refl g.length)
    have hre : (g ++ a.nodes env g.length) ++
        [⟨a.eval env ^ d, 0, .powi (a.outId g.length) d⟩] =
        g ++ (Expr.powi a d).nodes env g.length := by
      simp [Expr.nodes, List.append_assoc]
    rw [hre] at w3
    exact w3
  | powf a p iha =>
    intro g hwf hvar
    have w1 : Wf (g ++ a.nodes env g.length) := iha g hwf (fun j hj => hvar j hj)
    have hlen1 : (g ++ a.nodes env g.length).length = g.length + a.sz := by
      simp [nodes_length]
    have w3 : Wf ((g ++ a.nodes env g.length) ++
        [⟨a.eval env ^ p, 0, .powf (a.outId g.length) p⟩]) := by
      refine wf_append_singleton _ _ w1 ?_
      intro c hcm
      simp [Op.children] at hcm
      rw [hlen1, hcm]
      exact outId_lt a (fun j hj => hvar j hj) (Nat.le_refl g.length)
    have hre : (g ++ a.nodes env g.length) ++
        [⟨a.eval env ^ p, 0, .powf (a.outId g.length) p⟩] =
        g ++ (Expr.powf a p).nodes env g.length := by
      simp [Expr.nodes, List.append_assoc]
    rw [hre] at w3
    exact w3

theorem nodes_grad_zero (env : Nat → ℝ) :
    ∀ (e : Expr) (base : Nat), ∀ n ∈ e.nodes env base, n.grad = 0 := by
  intro e
  induction e with
  | var j => intro base n hn; exact absurd hn (List.not_mem_nil n)
  | add a b iha ihb =>
    intro base n hn
    simp only [Expr.nodes, List.mem_append] at hn
    rcases hn with (hn | hn) | hn
    · exact iha base n hn
    · exact ihb (base + a.sz) n hn
    · rw [List.mem_singleton.mp hn]
  | mul a b iha ihb =>
    intro base n hn
    simp only [Expr.nodes, List.mem_append] at hn
    rcases hn with (hn | hn) | hn
    · exact iha base n hn
    · exact ihb (base + a.sz) n hn
    · rw [List.mem_singleton.mp hn]
  | powi a d iha =>
    intro base n hn
    simp only [Expr.nodes, List.mem_append] at hn
    rcases hn with hn | hn
    · exact iha base n hn
    · rw [List.mem_singleton.mp hn]
  | powf a p iha =>
    intro base n hn
    simp only [Expr.nodes, List.mem_append] at hn
    rcases hn with hn | hn
    · exact iha base n hn
    · rw [List.mem_singleton.mp hn]

theorem gradAt_zero_of_forall {g : Graph α} (h : ∀ n ∈ g, n.grad = 0) :
    ∀ i, gradAt g i = 0 := by
  intro i
  unfold gradAt
  cases hg : g[i]? with
  | none => rfl
  | some n => exact h n (List.getElem?_mem hg)

/-- Total adjoint accumulated at each leaf index when the expression's
out node receives seed `s`: one term per occurrence of the leaf, each the
product of the local derivatives along its path. -/
noncomputable def Expr.leafAdj (env : Nat → ℝ) : Expr → ℝ → Nat → ℝ
  | .var j, s => fun x => if x = j then s else 0
  | .add a b, s => fun x => a.leafAdj env (1 * s) x + b.leafAdj env (1 * s) x
  | .mul a b, s => fun x =>
    a.leafAdj env (b.eval env * s) x + b.leafAdj env (a.eval env * s) x
  | .powi a d, s => a.leafAdj env ((d : ℝ) * a.eval env ^ (d - 1) * s)
  | .powf a p, s => a.leafAdj env (p * a.eval env ^ (p - 1) * s)

/-- Adjoint of each internal node of a segment placed at `base`, when the
segment's out node receives seed `s`. -/
noncomputable def Expr.adjOf (env : Nat → ℝ) : Expr → Nat → ℝ → Nat → ℝ
  | .var _, _, _ => fun _ => 0
  | .add a b, base, s => fun x =>
    (if x = base + a.sz + b.sz then s else 0) +
      (a.adjOf env base (1 * s) x + b.adjOf env (base + a.sz) (1 * s) x)
  | .mul a b, base, s => fun x =>
    (if x = base + a.sz + b.sz then s else 0) +
      (a.adjOf env base (b.eval env * s) x + b.adjOf env (base + a.sz) (a.eval env * s) x)
  | .powi a d, base, s => fun x =>
    (if x = base + a.sz then s else 0) +
      a.adjOf env base ((d : ℝ) * a.eval env ^ (d - 1) * s) x
  | .powf a p, base, s => fun x =>
    (if x = base + a.sz then s else 0) +
      a.adjOf env base (p * a.eval env ^ (p - 1) * s) x

theorem adjOf_support (env : Nat → ℝ) :
    ∀ (e : Expr) (base : Nat) (s : ℝ) (x : Nat),
      x < base ∨ base + e.sz ≤ x → e.adjOf env base s x = 0 := by
  intro e
  induction e with
  | var j => intro base s x _; rfl
  | add a b iha ihb =>
    intro base s x hx
    simp only [Expr.sz] at hx
    show (if x = base + a.sz + b.sz then s else 0) + _ = 0
    rw [if_neg (by omega), iha base (1 * s) x (by omega), ihb (base + a.sz) (1 * s) x (by omega)]
    ring
  | mul a b iha ihb =>
    intro base s x hx
    simp only [Expr.sz] at hx
    show (if x = base + a.sz + b.sz then s else 0) + _ = 0
    rw [if_neg (by omega), iha base (b.eval env * s) x (by omega),
      ihb (base + a.sz) (a.eval env * s) x (by omega)]
    ring
  | powi a d iha =>
    intro base s x hx
    simp only [Expr.sz] at hx
    show (if x = base + a.sz then s else 0) + _ = 0
    rw [if_neg (by omega), iha base ((d : ℝ) * a.eval env ^ (d - 1) * s) x (by omega)]
    ring
  | powf a p iha =>
    intro base s x hx
    simp only [Expr.sz] at hx
    show (if x = base + a.sz then s else 0) + _ = 0
    rw [if_neg (by omega), iha base (p * a.eval env ^ (p - 1) * s) x (by omega)]
    ring

theorem leafAdj_support (env : Nat → ℝ) :
    ∀ (e : Expr) (s : ℝ) (x : Nat), ¬ Expr.VarIn x e → e.leafAdj env s x = 0 := by
  intro e
  induction e with
  | var j =>
    intro s x hx
    have : ¬ x = j := hx
    simp [Expr.leafAdj, this]
  | add a b iha ihb =>
    intro s x hx
    rw [Expr.VarIn] at hx
    push_neg at hx
    show a.leafAdj env (1 * s) x + b.leafAdj env (1 * s) x = 0
    rw [iha _ _ hx.1, ihb _ _ hx.2]
    ring
  | mul a b iha ihb =>
    intro s x hx
    rw [Expr.VarIn] at hx
    push_neg at hx
    show a.leafAdj env (b.eval env * s) x + b.leafAdj env (a.eval env * s) x = 0
    rw [iha _ _ hx.1, ihb _ _ hx.2]
    ring
  | powi a d iha =>
    intro s x hx
    rw [Expr.VarIn] at hx
    exact iha _ _ hx
  | powf a p iha =>
    intro s x hx
    rw [Expr.VarIn] at hx
    exact iha _ _ hx

/-- The accumulated leaf adjoint is the seed times the mathematical
partial derivative. -/
theorem leafAdj_eq_pderiv (env : Nat → ℝ) :
    ∀ (e : Expr) (s : ℝ) (j : Nat), e.leafAdj env s j = s * e.pderiv env j := by
  intro e
  induction e with
  | var i =>
    intro s j
    by_cases hj : j = i
    · simp [Expr.leafAdj, Expr.pderiv, hj]
    · have : ¬ i = j := fun h => hj h.symm
      simp [Expr.leafAdj, Expr.pderiv, hj, this]
  | add a b iha ihb =>
    intro s j
    show a.leafAdj env (1 * s) j + b.leafAdj env (1 * s) j = _
    rw [iha, ihb, Expr.pderiv]
    ring
  | mul a b iha ihb =>
    intro s j
    show a.leafAdj env (b.eval env * s) j + b.leafAdj env (a.eval env * s) j = _
    rw [iha, ihb, Expr.pderiv]
    ring
  | powi a d iha =>
    intro s j
    show a.leafAdj env ((d : ℝ) * a.eval env ^ (d - 1) * s) j = _
    rw [iha, Expr.pderiv]
    ring
  | powf a p iha =>
    intro s j
    show a.leafAdj env (p * a.eval env ^ (p - 1) * s) j = _
    rw [iha, Expr.pderiv]
    ring

theorem localSum_zero_of_le {M : MathFuns α} {G : Graph α} (hwf : Wf G) (γ : Nat → α)
    {j x : Nat} (hj : j < G.length) (hxj : j ≤ x) : localSum M G γ j x = 0 := by
  refine localSum_zero_of_not_child M G γ (fun hmem => ?_)
  have := hwf j hj x ((mem_children_iff_mem_prevList G j x).mp hmem)
  omega

/-- On a well-formed heap the adjoint system has at most one solution:
each unknown is determined by the unknowns of strictly larger index. -/
theorem adjoint_unique (M : MathFuns α) (G : Graph α) (hwf : Wf G) (root : Nat)
    (γ1 γ2 : Nat → α)
    (h1 : ∀ x, γ1 x = (if x = root then 1 else 0) +
      ∑ j ∈ Finset.range G.length, localSum M G γ1 j x)
    (h2 : ∀ x, γ2 x = (if x = root then 1 else 0) +
      ∑ j ∈ Finset.range G.length, localSum M G γ2 j x) :
    ∀ x, γ1 x = γ2 x := by
  have key : ∀ m x, G.length - x ≤ m → γ1 x = γ2 x := by
    intro m
    induction m with
    | zero =>
      intro x hx
      have hxlen : G.length ≤ x := by omega
      have hz1 : ∀ j ∈ Finset.range G.length, localSum M G γ1 j x = 0 := by
        intro j hj
        rw [Finset.mem_range] at hj
        exact localSum_zero_of_le hwf γ1 hj (by omega)
      have hz2 : ∀ j ∈ Finset.range G.length, localSum M G γ2 j x = 0 := by
        intro j hj
        rw [Finset.mem_range] at hj
        exact localSum_zero_of_le hwf γ2 hj (by omega)
      rw [h1 x, h2 x, Finset.sum_eq_zero hz1, Finset.sum_eq_zero hz2]
    | succ m ihm =>
      intro x hx
      rw [h1 x, h2 x]
      congr 1
      refine Finset.sum_congr rfl (fun j hj => ?_)
      rw [Finset.mem_range] at hj
      by_cases hxj : x < j
      · have hjeq : γ1 j = γ2 j := ihm j (by omega)
        exact localSum_congr M j x rfl (fun _ => rfl) hjeq
      · rw [localSum_zero_of_le hwf γ1 hj (by omega),
          localSum_zero_of_le hwf γ2 hj (by omega)]
  exact fun x => key G.length x (by omega)

/-- Data of the out node of any placed segment. -/
theorem data_out_placed (env : Nat → ℝ) (G0 : Graph ℝ) (k : Nat)
    (hleafdata : ∀ j, j < k → dataAt G0 j = env j) (e : Expr) (base : Nat)
    (hvar : ∀ j, Expr.VarIn j e → j < k)
    (hplace : ∃ pre post, G0 = pre ++ e.nodes env base ++ post ∧ pre.length = base) :
    dataAt G0 (e.outId base) = e.eval env := by
  obtain ⟨pre, post, hG0, hpre⟩ := hplace
  cases e with
  | var j => exact hleafdata j (hvar j rfl)
  | add a b =>
    show dataAt G0 (base + a.sz + b.sz) = a.eval env + b.eval env
    have hre : G0 = (pre ++ a.nodes env base ++ b.nodes env (base + a.sz)) ++
        (⟨a.eval env + b.eval env, 0,
          .add (a.outId base) (b.outId (base + a.sz))⟩ : VNode ℝ) :: post := by
      rw [hG0]
      show pre ++ (a.nodes env base ++ b.nodes env (base + a.sz) ++ [_]) ++ post = _
      simp [List.append_assoc]
    have hlen : (pre ++ a.nodes env base ++ b.nodes env (base + a.sz)).length =
        base + a.sz + b.sz := by
      simp [hpre, nodes_length]
      omega
    rw [hre, ← hlen, dataAt_append_self]
  | mul a b =>
    show dataAt G0 (base + a.sz + b.sz) = a.eval env * b.eval env
    have hre : G0 = (pre ++ a.nodes env base ++ b.nodes env (base + a.sz)) ++
        (⟨a.eval env * b.eval env, 0,
          .mul (a.outId base) (b.outId (base + a.sz))⟩ : VNode ℝ) :: post := by
      rw [hG0]
      show pre ++ (a.nodes env base ++ b.nodes env (base + a.sz) ++ [_]) ++ post = _
      simp [List.append_assoc]
    have hlen : (pre ++ a.nodes env base ++ b.nodes env (base + a.sz)).length =
        base + a.sz + b.sz := by
      simp [hpre, nodes_length]
      omega
    rw [hre, ← hlen, dataAt_append_self]
  | powi a d =>
    show dataAt G0 (base + a.sz) = a.eval env ^ d
    have hre : G0 = (pre ++ a.nodes env base) ++
        (⟨a.eval env ^ d, 0, .powi (a.outId base) d⟩ : VNode ℝ) :: post := by
      rw [hG0]
      show pre ++ (a.nodes env base ++ [_]) ++ post = _
      simp [List.append_assoc]
    have hlen : (pre ++ a.nodes env base).length = base + a.sz := by
      simp [hpre, nodes_length]
    rw [hre, ← hlen, dataAt_append_self]
  | powf a p =>
    show dataAt G0 (base + a.sz) = a.eval env ^ p
    have hre : G0 = (pre ++ a.nodes env base) ++
        (⟨a.eval env ^ p, 0, .powf (a.outId base) p⟩ : VNode ℝ) :: post := by
      rw [hG0]
      show pre ++ (a.nodes env base ++ [_]) ++ post = _
      simp [List.append_assoc]
    have hlen : (pre ++ a.nodes env base).length = base + a.sz := by
      simp [hpre, nodes_length]
    rw [hre, ← hlen, dataAt_append_self]

/-- Operation record of the out node of any placed non-leaf segment, and
an if-orientation helper. -/
theorem ite_eq_flip (p q : Nat) (v : α) :
    (if p = q then v else 0) = (if q = p then v else 0) := by
  by_cases h : p = q
  · simp [h]
  · have h' : ¬ q = p := fun hh => h hh.symm
    rw [if_neg h, if_neg h']

/-- The sum of the contributions of a placed segment's nodes: everything
the segment's `_backward` closures will deposit, expressed through the
leaf and internal adjoints. -/
theorem segsum (M : MathFuns ℝ) (hrpow : ∀ x y, M.rpow x y = x ^ y)
    (env : Nat → ℝ) (G0 : Graph ℝ) (k : Nat)
    (hleafdata : ∀ j, j < k → dataAt G0 j = env j) :
    ∀ (e : Expr) (base : Nat) (s : ℝ) (γ : Nat → ℝ) (x : Nat),
      (∀ j, Expr.VarIn j e → j < k) → k ≤ base →
      (∃ pre post, G0 = pre ++ e.nodes env base ++ post ∧ pre.length = base) →
      (∀ y, base ≤ y → y < base + e.sz → γ y = e.adjOf env base s y) →
      ∑ j ∈ Finset.Ico base (base + e.sz), localSum M G0 γ j x =
        e.leafAdj env s x + e.adjOf env base s x - (if x = e.outId base then s else 0) := by
  intro e
  induction e with
  | var j =>
    intro base s γ x hvar hk hplace hγ
    show (∑ j ∈ Finset.Ico base (base + 0), localSum M G0 γ j x) = _
    rw [Nat.add_zero, Finset.Ico_self, Finset.sum_empty]
    show (0 : ℝ) = (if x = j then s else 0) + 0 - (if x = j then s else 0)
    ring
  | add a b iha ihb =>
    intro base s γ x hvar hk hplace hγ
    obtain ⟨pre, post, hG0, hpre⟩ := hplace
    have hG0' : G0 = pre ++ (a.nodes env base ++ b.nodes env (base + a.sz) ++
        [⟨a.eval env + b.eval env, 0,
          .add (a.outId base) (b.outId (base + a.sz))⟩]) ++ post := hG0
    have hplaceA : ∃ p q, G0 = p ++ a.nodes env base ++ q ∧ p.length = base :=
      ⟨pre, b.nodes env (base + a.sz) ++
        [⟨a.eval env + b.eval env, 0,
          .add (a.outId base) (b.outId (base + a.sz))⟩] ++ post,
        by rw [hG0']; simp [List.append_assoc], hpre⟩
    have hplaceB : ∃ p q, G0 = p ++ b.nodes env (base + a.sz) ++ q ∧
        p.length = base + a.sz :=
      ⟨pre ++ a.nodes env base,
        [⟨a.eval env + b.eval env, 0,
          .add (a.outId base) (b.outId (base + a.sz))⟩] ++ post,
        by rw [hG0']; simp [List.append_assoc], by simp [hpre, nodes_length]⟩
    have hszadd : (Expr.add a b).sz = a.sz + b.sz + 1 := rfl
    have hγA : ∀ y, base ≤ y → y < base + a.sz →
        γ y = a.adjOf env base (1 * s) y := by
      intro y h1 h2
      rw [hγ y h1 (by rw [hszadd]; omega)]
      show (if y = base + a.sz + b.sz then s else 0) +
        (a.adjOf env base (1 * s) y + b.adjOf env (base + a.sz) (1 * s) y) = _
      rw [if_neg (by omega),
        adjOf_support env b (base + a.sz) (1 * s) y (Or.inl (by omega))]
      ring
    have hγB : ∀ y, base + a.sz ≤ y → y < (base + a.sz) + b.sz →
        γ y = b.adjOf env (base + a.sz) (1 * s) y := by
      intro y h1 h2
      rw [hγ y (by omega) (by rw [hszadd]; omega)]
      show (if y = base + a.sz + b.sz then s else 0) +
        (a.adjOf env base (1 * s) y + b.adjOf env (base + a.sz) (1 * s) y) = _
      rw [if_neg (by omega),
        adjOf_support env a base (1 * s) y (Or.inr (by omega))]
      ring
    have hSA := iha base (1 * s) γ x (fun j hj => hvar j (Or.inl hj)) hk hplaceA hγA
    have hSB := ihb (base + a.sz) (1 * s) γ x (fun j hj => hvar j (Or.inr hj))
      (by omega) hplaceB hγB
    have hopn : opAt G0 (base + a.sz + b.sz) =
        .add (a.outId base) (b.outId (base + a.sz)) := by
      have hre : G0 = (pre ++ a.nodes env base ++ b.nodes env (base + a.sz)) ++
          (⟨a.eval env + b.eval env, 0,
            .add (a.outId base) (b.outId (base + a.sz))⟩ : VNode ℝ) :: post := by
        rw [hG0']
        simp [List.append_assoc]
      have hlen : (pre ++ a.nodes env base ++ b.nodes env (base + a.sz)).length =
          base + a.sz + b.sz := by
        simp [hpre, nodes_length]
        omega
      rw [hre, ← hlen, opAt_append_self]
    have hγn : γ (base + a.sz + b.sz) = s := by
      rw [hγ _ (by omega) (by rw [hszadd]; omega)]
      show (if base + a.sz + b.sz = base + a.sz + b.sz then s else 0) +
        (a.adjOf env base (1 * s) _ + b.adjOf env (base + a.sz) (1 * s) _) = s
      rw [if_pos rfl,
        adjOf_support env a base (1 * s) _ (Or.inr (by omega)),
        adjOf_support env b (base + a.sz) (1 * s) _ (Or.inr (by omega))]
      ring
    have hlocal : localSum M G0 γ (base + a.sz + b.sz) x =
        (if x = a.outId base then 1 * s else 0) +
          (if x = b.outId (base + a.sz) then 1 * s else 0) := by
      unfold localSum
      rw [hopn]
      dsimp only
      rw [hγn, ite_eq_flip (a.outId base) x, ite_eq_flip (b.outId (base + a.sz)) x]
    have hsplit : ∑ j ∈ Finset.Ico base (base + (Expr.add a b).sz), localSum M G0 γ j x =
        (∑ j ∈ Finset.Ico base (base + a.sz), localSum M G0 γ j x) +
          (∑ j ∈ Finset.Ico (base + a.sz) ((base + a.sz) + b.sz), localSum M G0 γ j x) +
          localSum M G0 γ (base + a.sz + b.sz) x := by
      rw [hszadd, show base + (a.sz + b.sz + 1) = (base + a.sz + b.sz) + 1 by omega,
        Finset.sum_Ico_succ_top (by omega)]
      rw [show base + a.sz + b.sz = (base + a.sz) + b.sz by omega]
      rw [← Finset.sum_Ico_consecutive _ (show base ≤ base + a.sz by omega)
        (show base + a.sz ≤ (base + a.sz) + b.sz by omega)]
    rw [hsplit, hSA, hSB, hlocal]
    show _ = (a.leafAdj env (1 * s) x + b.leafAdj env (1 * s) x) +
      ((if x = base + a.sz + b.sz then s else 0) +
        (a.adjOf env base (1 * s) x + b.adjOf env (base + a.sz) (1 * s) x)) -
      (if x = base + a.sz + b.sz then s else 0)
    ring
  | mul a b iha ihb =>
    intro base s γ x hvar hk hplace hγ
    obtain ⟨pre, post, hG0, hpre⟩ := hplace
    have hG0' : G0 = pre ++ (a.nodes env base ++ b.nodes env (base + a.sz) ++
        [⟨a.eval env * b.eval env, 0,
          .mul (a.outId base) (b.outId (base + a.sz))⟩]) ++ post := hG0
    have hplaceA : ∃ p q, G0 = p ++ a.nodes env base ++ q ∧ p.length = base :=
      ⟨pre, b.nodes env (base + a.sz) ++
        [⟨a.eval env * b.eval env, 0,
          .mul (a.outId base) (b.outId (base + a.sz))⟩] ++ post,
        by rw [hG0']; simp [List.append_assoc], hpre⟩
    have hplaceB : ∃ p q, G0 = p ++ b.nodes env (base + a.sz) ++ q ∧
        p.length = base + a.sz :=
      ⟨pre ++ a.nodes env base,
        [⟨a.eval env * b.eval env, 0,
          .mul (a.outId base) (b.outId (base + a.sz))⟩] ++ post,
        by rw [hG0']; simp [List.append_assoc], by simp [hpre, nodes_length]⟩
    have hszmul : (Expr.mul a b).sz = a.sz + b.sz + 1 := rfl
    have hγA : ∀ y, base ≤ y → y < base + a.sz →
        γ y = a.adjOf env base (b.eval env * s) y := by
      intro y h1 h2
      rw [hγ y h1 (by rw [hszmul]; omega)]
      show (if y = base + a.sz + b.sz then s else 0) +
        (a.adjOf env base (b.eval env * s) y +
          b.adjOf env (base + a.sz) (a.eval env * s) y) = _
      rw [if_neg (by omega),
        adjOf_support env b (base + a.sz) (a.eval env * s) y (Or.inl (by omega))]
      ring
    have hγB : ∀ y, base + a.sz ≤ y → y < (base + a.sz) + b.sz →
        γ y = b.adjOf env (base + a.sz) (a.eval env * s) y := by
      intro y h1 h2
      rw [hγ y (by omega) (by rw [hszmul]; omega)]
      show (if y = base + a.sz + b.sz then s else 0) +
        (a.adjOf env base (b.eval env * s) y +
          b.adjOf env (base + a.sz) (a.eval env * s) y) = _
      rw [if_neg (by omega),
        adjOf_support env a base (b.eval env * s) y (Or.inr (by omega))]
      ring
    have hSA := iha base (b.eval env * s) γ x (fun j hj => hvar j (Or.inl hj)) hk
      hplaceA hγA
    have hSB := ihb (base + a.sz) (a.eval env * s) γ x (fun j hj => hvar j (Or.inr hj))
      (by omega) hplaceB hγB
    have hopn : opAt G0 (base + a.sz + b.sz) =
        .mul (a.outId base) (b.outId (base + a.sz)) := by
      have hre : G0 = (pre ++ a.nodes env base ++ b.nodes env (base + a.sz)) ++
          (⟨a.eval env * b.eval env, 0,
            .mul (a.outId base) (b.outId (base + a.sz))⟩ : VNode ℝ) :: post := by
        rw [hG0']
        simp [List.append_assoc]
      have hlen : (pre ++ a.nodes env base ++ b.nodes env (base + a.sz)).length =
          base + a.sz + b.sz := by
        simp [hpre, nodes_length]
        omega
      rw [hre, ← hlen, opAt_append_self]
    have hγn : γ (base + a.sz + b.sz) = s := by
      rw [hγ _ (by omega) (by rw [hszmul]; omega)]
      show (if base + a.sz + b.sz = base + a.sz + b.sz then s else 0) +
        (a.adjOf env base (b.eval env * s) _ +
          b.adjOf env (base + a.sz) (a.eval env * s) _) = s
      rw [if_pos rfl,
        adjOf_support env a base (b.eval env * s) _ (Or.inr (by omega)),
        adjOf_support env b (base + a.sz) (a.eval env * s) _ (Or.inr (by omega))]
      ring
    have hdataA : dataAt G0 (a.outId base) = a.eval env :=
      data_out_placed env G0 k hleafdata a base (fun j hj => hvar j (Or.inl hj)) hplaceA
    have hdataB : dataAt G0 (b.outId (base + a.sz)) = b.eval env :=
      data_out_placed env G0 k hleafdata b (base + a.sz)
        (fun j hj => hvar j (Or.inr hj)) hplaceB
    have hlocal : localSum M G0 γ (base + a.sz + b.sz) x =
        (if x = a.outId base then b.eval env * s else 0) +
          (if x = b.outId (base + a.sz) then a.eval env * s else 0) := by
      unfold localSum
      rw [hopn]
      dsimp only
      rw [hγn, hdataA, hdataB, ite_eq_flip (a.outId base) x,
        ite_eq_flip (b.outId (base + a.sz)) x]
    have hsplit : ∑ j ∈ Finset.Ico base (base + (Expr.mul a b).sz), localSum M G0 γ j x =
        (∑ j ∈ Finset.Ico base (base + a.sz), localSum M G0 γ j x) +
          (∑ j ∈ Finset.Ico (base + a.sz) ((base + a.sz) + b.sz), localSum M G0 γ j x) +
          localSum M G0 γ (base + a.sz + b.sz) x := by
      rw [hszmul, show base + (a.sz + b.sz + 1) = (base + a.sz + b.sz) + 1 by omega,
        Finset.sum_Ico_succ_top (by omega)]
      rw [show base + a.sz + b.sz = (base + a.sz) + b.sz by omega]
      rw [← Finset.sum_Ico_consecutive _ (show base ≤ base + a.sz by omega)
        (show base + a.sz ≤ (base + a.sz) + b.sz by omega)]
    rw [hsplit, hSA, hSB, hlocal]
    show _ = (a.leafAdj env (b.eval env * s) x + b.leafAdj env (a.eval env * s) x) +
      ((if x = base + a.sz + b.sz then s else 0) +
        (a.adjOf env base (b.eval env * s) x +
          b.adjOf env (base + a.sz) (a.eval env * s) x)) -
      (if x = base + a.sz + b.sz then s else 0)
    ring
  | powi a d iha =>
    intro base s γ x hvar hk hplace hγ
    obtain ⟨pre, post, hG0, hpre⟩ := hplace
    have hG0' : G0 = pre ++ (a.nodes env base ++
        [⟨a.eval env ^ d, 0, .powi (a.outId base) d⟩]) ++ post := hG0
    have hplaceA : ∃ p q, G0 = p ++ a.nodes env base ++ q ∧ p.length = base :=
      ⟨pre, [⟨a.eval env ^ d, 0, .powi (a.outId base) d⟩] ++ post,
        by rw [hG0']; simp [List.append_assoc], hpre⟩
    have hszpow : (Expr.powi a d).sz = a.sz + 1 := rfl
    have hγA : ∀ y, base ≤ y → y < base + a.sz →
        γ y = a.adjOf env base ((d : ℝ) * a.eval env ^ (d - 1) * s) y := by
      intro y h1 h2
      rw [hγ y h1 (by rw [hszpow]; omega)]
      show (if y = base + a.sz then s else 0) +
        a.adjOf env base ((d : ℝ) * a.eval env ^ (d - 1) * s) y = _
      rw [if_neg (by omega)]
      ring
    have hSA := iha base ((d : ℝ) * a.eval env ^ (d - 1) * s) γ x
      (fun j hj => hvar j hj) hk hplaceA hγA
    have hopn : opAt G0 (base + a.sz) = .powi (a.outId base) d := by
      have hre : G0 = (pre ++ a.nodes env base) ++
          (⟨a.eval env ^ d, 0, .powi (a.outId base) d⟩ : VNode ℝ) :: post := by
        rw [hG0']
        simp [List.append_assoc]
      have hlen : (pre ++ a.nodes env base).length = base + a.sz := by
        simp [hpre, nodes_length]
      rw [hre, ← hlen, opAt_append_self]
    have hγn : γ (base + a.sz) = s := by
      rw [hγ _ (by omega) (by rw [hszpow]; omega)]
      show (if base + a.sz = base + a.sz then s else 0) +
        a.adjOf env base ((d : ℝ) * a.eval env ^ (d - 1) * s) _ = s
      rw [if_pos rfl, adjOf_support env a base _ _ (Or.inr (by omega))]
      ring
    have hdataA : dataAt G0 (a.outId base) = a.eval env :=
      data_out_placed env G0 k hleafdata a base (fun j hj => hvar j hj) hplaceA
    have hlocal : localSum M G0 γ (base + a.sz) x =
        (if x = a.outId base then (d : ℝ) * a.eval env ^ (d - 1) * s else 0) := by
      unfold localSum
      rw [hopn]
      dsimp only
      rw [hγn, hdataA, ite_eq_flip (a.outId base) x]
    have hsplit : ∑ j ∈ Finset.Ico base (base + (Expr.powi a d).sz),
        localSum M G0 γ j x =
        (∑ j ∈ Finset.Ico base (base + a.sz), localSum M G0 γ j x) +
          localSum M G0 γ (base + a.sz) x := by
      rw [hszpow, show base + (a.sz + 1) = (base + a.sz) + 1 by omega,
        Finset.sum_Ico_succ_top (by omega)]
    rw [hsplit, hSA, hlocal]
    show _ = a.leafAdj env ((d : ℝ) * a.eval env ^ (d - 1) * s) x +
      ((if x = base + a.sz then s else 0) +
        a.adjOf env base ((d : ℝ) * a.eval env ^ (d - 1) * s) x) -
      (if x = base + a.sz then s else 0)
    ring
  | powf a p iha =>
    intro base s γ x hvar hk hplace hγ
    obtain ⟨pre, post, hG0, hpre⟩ := hplace
    have hG0' : G0 = pre ++ (a.nodes env base ++
        [⟨a.eval env ^ p, 0, .powf (a.outId base) p⟩]) ++ post := hG0
    have hplaceA : ∃ pr q, G0 = pr ++ a.nodes env base ++ q ∧ pr.length = base :=
      ⟨pre, [⟨a.eval env ^ p, 0, .powf (a.outId base) p⟩] ++ post,
        by rw [hG0']; simp [List.append_assoc], hpre⟩
    have hszpow : (Expr.powf a p).sz = a.sz + 1 := rfl
    have hγA : ∀ y, base ≤ y → y < base + a.sz →
        γ y = a.adjOf env base (p * a.eval env ^ (p - 1) * s) y := by
      intro y h1 h2
      rw [hγ y h1 (by rw [hszpow]; omega)]
      show (if y = base + a.sz then s else 0) +
        a.adjOf env base (p * a.eval env ^ (p - 1) * s) y = _
      rw [if_neg (by omega)]
      ring
    have hSA := iha base (p * a.eval env ^ (p - 1) * s) γ x
      (fun j hj => hvar j hj) hk hplaceA hγA
    have hopn : opAt G0 (base + a.sz) = .powf (a.outId base) p := by
      have hre : G0 = (pre ++ a.nodes env base) ++
          (⟨a.eval env ^ p, 0, .powf (a.outId base) p⟩ : VNode ℝ) :: post := by
        rw [hG0']
        simp [List.append_assoc]
      have hlen : (pre ++ a.nodes env base).length = base + a.sz := by
        simp [hpre, nodes_length]
      rw [hre, ← hlen, opAt_append_self]
    have hγn : γ (base + a.sz) = s := by
      rw [hγ _ (by omega) (by rw [hszpow]; omega)]
      show (if base + a.sz = base + a.sz then s else 0) +
        a.adjOf env base (p * a.eval env ^ (p - 1) * s) _ = s
      rw [if_pos rfl, adjOf_support env a base _ _ (Or.inr (by omega))]
      ring
    have hdataA : dataAt G0 (a.outId base) = a.eval env :=
      data_out_placed env G0 k hleafdata a base (fun j hj => hvar j hj) hplaceA
    have hlocal : localSum M G0 γ (base + a.sz) x =
        (if x = a.outId base then p * a.eval env ^ (p - 1) * s else 0) := by
      unfold localSum
      rw [hopn]
      dsimp only
      rw [hγn, hdataA, hrpow, ite_eq_flip (a.outId base) x]
    have hsplit : ∑ j ∈ Finset.Ico base (base + (Expr.powf a p).sz),
        localSum M G0 γ j x =
        (∑ j ∈ Finset.Ico base (base + a.sz), localSum M G0 γ j x) +
          localSum M G0 γ (base + a.sz) x := by
      rw [hszpow, show base + (a.sz + 1) = (base + a.sz) + 1 by omega,
        Finset.sum_Ico_succ_top (by omega)]
    rw [hsplit, hSA, hlocal]
    show _ = a.leafAdj env (p * a.eval env ^ (p - 1) * s) x +
      ((if x = base + a.sz then s else 0) +
        a.adjOf env base (p * a.eval env ^ (p - 1) * s) x) -
      (if x = base + a.sz then s else 0)
    ring

/-- The candidate adjoint assignment: leaf adjoints plus internal-node
adjoints of the expression's segment placed after the `k` leaves. -/
noncomputable def gammaStar (env : Nat → ℝ) (e : Expr) (k : Nat) : Nat → ℝ :=
  fun y => e.leafAdj env 1 y + e.adjOf env k 1 y

/-- The candidate adjoint assignment satisfies the adjoint system of the
built heap. -/
theorem gammaStar_system (M : MathFuns ℝ) (hrpow : ∀ x y, M.rpow x y = x ^ y)
    (env : Nat → ℝ) (k : Nat) (e : Expr)
    (hvar : ∀ j, Expr.VarIn j e → j < k) :
    ∀ x, gammaStar env e k x =
      (if x = e.outId k then 1 else 0) +
        ∑ j ∈ Finset.range (leafGraph k env ++ e.nodes env k).length,
          localSum M (leafGraph k env ++ e.nodes env k) (gammaStar env e k) j x := by
  intro x
  have hlen : (leafGraph k env ++ e.nodes env k).length = k + e.sz := by
    simp [leafGraph_length, nodes_length]
  have hleafdata : ∀ j, j < k → dataAt (leafGraph k env ++ e.nodes env k) j = env j := by
    intro j hj
    rw [dataAt_append_lt _ _ _ (by rw [leafGraph_length]; exact hj)]
    exact dataAt_leafGraph k env hj
  have hleafop : ∀ j, j < k → opAt (leafGraph k env ++ e.nodes env k) j = .leaf := by
    intro j hj
    rw [opAt_append_lt _ _ _ (by rw [leafGraph_length]; exact hj)]
    exact opAt_leafGraph k env hj
  have hz : ∀ j ∈ Finset.Ico 0 k,
      localSum M (leafGraph k env ++ e.nodes env k) (gammaStar env e k) j x = 0 := by
    intro j hj
    rw [Finset.mem_Ico] at hj
    unfold localSum
    rw [hleafop j hj.2]
  have hplace : ∃ pre post, leafGraph k env ++ e.nodes env k =
      pre ++ e.nodes env k ++ post ∧ pre.length = k :=
    ⟨leafGraph k env, [], by simp, leafGraph_length k env⟩
  have hγagree : ∀ y, k ≤ y → y < k + e.sz →
      gammaStar env e k y = e.adjOf env k 1 y := by
    intro y h1 _
    unfold gammaStar
    rw [leafAdj_support env e 1 y (fun hv => by have := hvar y hv; omega)]
    ring
  have hseg := segsum M hrpow env (leafGraph k env ++ e.nodes env k) k hleafdata e k 1
    (gammaStar env e k) x hvar (Nat.le_refl k) hplace hγagree
  rw [hlen, Finset.range_eq_Ico,
    ← Finset.sum_Ico_consecutive _ (Nat.zero_le k) (show k ≤ k + e.sz by omega),
    Finset.sum_eq_zero hz, zero_add, hseg]
  unfold gammaStar
  ring

set_option maxHeartbeats 1000000 in
/-- On a heap built from an expression over the shared leaves, the grads
that `backward()` leaves at the leaves are exactly the mathematical
partial derivatives. -/
theorem built_backward_leaf_grads (M : MathFuns ℝ) (hrpow : ∀ x y, M.rpow x y = x ^ y)
    (env : Nat → ℝ) (k : Nat) (e : Expr)
    (G : Graph ℝ) (root : Nat)
    (hvar : ∀ j, Expr.VarIn j e → j < k) (hpow : e.PowOk env)
    (hbuild : buildE (leafGraph k env) e = some (G, root)) :
    ∀ j, j < k → gradAt (backward M G root) j = e.pderiv env j := by
  have hvar' : ∀ j, Expr.VarIn j e →
      j < (leafGraph k env).length ∧ dataAt (leafGraph k env) j = env j := by
    intro j hj
    exact ⟨by rw [leafGraph_length]; exact hvar j hj, dataAt_leafGraph k env (hvar j hj)⟩
  have hb2 := buildE_eq env e (leafGraph k env) hvar' hpow
  rw [hbuild, leafGraph_length] at hb2
  have hpair := Option.some.inj hb2
  have hG : G = leafGraph k env ++ e.nodes env k := congrArg Prod.fst hpair
  have hroot : root = e.outId k := congrArg Prod.snd hpair
  subst hG
  subst hroot
  have hwfG : Wf (leafGraph k env ++ e.nodes env k) := by
    have := wf_buildE env e (leafGraph k env) (wf_leafGraph k env)
      (fun j hj => by rw [leafGraph_length]; exact hvar j hj)
    rw [leafGraph_length] at this
    exact this
  have hlen : (leafGraph k env ++ e.nodes env k).length = k + e.sz := by
    simp [leafGraph_length, nodes_length]
  have hrootlen : e.outId k < (leafGraph k env ++ e.nodes env k).length := by
    rw [hlen]
    exact outId_lt e hvar (Nat.le_refl k)
  have hgrads : ∀ i, gradAt (leafGraph k env ++ e.nodes env k) i = 0 := by
    refine gradAt_zero_of_forall (fun n hn => ?_)
    rcases List.mem_append.mp hn with h | h
    · obtain ⟨j, _, rfl⟩ := List.mem_map.mp h
      rfl
    · exact nodes_grad_zero env e k n h
  have spec := backward_spec M (leafGraph k env ++ e.nodes env k) (e.outId k)
    hwfG hrootlen hgrads
  have hsysg : ∀ x,
      gradAt (backward M (leafGraph k env ++ e.nodes env k) (e.outId k)) x =
      (if x = e.outId k then 1 else 0) +
        ∑ j ∈ Finset.range (leafGraph k env ++ e.nodes env k).length,
          localSum M (leafGraph k env ++ e.nodes env k)
            (gradAt (backward M (leafGraph k env ++ e.nodes env k) (e.outId k))) j x := by
    intro x
    rw [spec.2.2.2.2 x]
    congr 1
    refine Finset.sum_congr rfl (fun j _ => ?_)
    exact localSum_congr M j x (spec.2.1 j) spec.1 rfl
  have huniq := adjoint_unique M (leafGraph k env ++ e.nodes env k) hwfG (e.outId k)
    (gradAt (backward M (leafGraph k env ++ e.nodes env k) (e.outId k)))
    (gammaStar env e k) hsysg (gammaStar_system M hrpow env k e hvar)
  intro j hj
  rw [huniq j]
  unfold gammaStar
  rw [adjOf_support env e k 1 j (Or.inl hj), leafAdj_eq_pderiv env e 1 j]
  ring

/-- The recursive partial derivative is the honest real derivative of
the expression's value in the leaf variable. -/
theorem eval_hasDerivAt (env : Nat → ℝ) (j : Nat) :
    ∀ (e : Expr), e.PowOk env →
      HasDerivAt (fun t => Expr.eval (Function.update env j t) e)
        (e.pderiv env j) (env j) := by
  intro e
  induction e with
  | var i =>
    intro _
    by_cases hij : i = j
    · subst hij
      have heq : (fun t => Expr.eval (Function.update env i t) (Expr.var i)) =
          fun t : ℝ => t := by
        funext t
        simp [Expr.eval, Function.update_same]
      rw [heq]
      have : Expr.pderiv env i (Expr.var i) = 1 := by simp [Expr.pderiv]
      rw [this]
      exact hasDerivAt_id' (env i)
    · have heq : (fun t => Expr.eval (Function.update env j t) (Expr.var i)) =
          fun _ : ℝ => env i := by
        funext t
        simp [Expr.eval, Function.update_apply, hij]
      rw [heq]
      have : Expr.pderiv env j (Expr.var i) = 0 := by simp [Expr.pderiv, hij]
      rw [this]
      exact hasDerivAt_const (env j) (env i)
  | add a b iha ihb =>
    intro hpow
    have h := (iha hpow.1).add (ihb hpow.2)
    exact h
  | mul a b iha ihb =>
    intro hpow
    have h := (iha hpow.1).mul (ihb hpow.2)
    have hsa : Expr.eval (Function.update env j (env j)) a = a.eval env := by
      rw [Function.update_eq_self]
    have hsb : Expr.eval (Function.update env j (env j)) b = b.eval env := by
      rw [Function.update_eq_self]
    rw [hsa, hsb] at h
    exact h
  | powi a d iha =>
    intro hpow
    have hne : a.eval env ≠ 0 ∨ 0 ≤ d := by
      rcases hpow.2 with h | h
      · exact Or.inl h
      · exact Or.inr (Int.le_of_lt h)
    have hz := hasDerivAt_zpow d (a.eval env) hne
    have hpt : Expr.eval (Function.update env j (env j)) a = a.eval env := by
      rw [Function.update_eq_self]
    have hcomp := HasDerivAt.comp (env j) (hpt ▸ hz) (iha hpow.1)
    have hfun : ((fun y : ℝ => y ^ d) ∘ fun t => Expr.eval (Function.update env j t) a) =
        fun t => Expr.eval (Function.update env j t) a ^ d := rfl
    rw [hfun, hpt] at hcomp
    exact hcomp
  | powf a p iha =>
    intro hpow
    have hne : a.eval env ≠ 0 ∨ 1 ≤ p := Or.inl (ne_of_gt hpow.2)
    have hz := Real.hasDerivAt_rpow_const hne
    have hpt : Expr.eval (Function.update env j (env j)) a = a.eval env := by
      rw [Function.update_eq_self]
    have hcomp := HasDerivAt.comp (env j) (hpt ▸ hz) (iha hpow.1)
    have hfun : ((fun y : ℝ => y ^ p) ∘ fun t => Expr.eval (Function.update env j t) a) =
        fun t => Expr.eval (Function.update env j t) a ^ p := rfl
    rw [hfun, hpt] at hcomp
    exact hcomp

/-- C4: for every expression built only from addition, multiplication
and power by a numeric constant — an integer (`powi`) or a float
(`powf`) exponent — over shared leaf `Value`s, after `backward()` (with
the real `math` semantics `MathR`) the grad stored at each leaf is
exactly the mathematical partial derivative of the output with respect
to that leaf. -/
theorem leaf_grads_are_partial_derivatives (env : Nat → ℝ) (k : Nat)
    (e : Expr) (G : Graph ℝ) (root : Nat)
    (hvar : ∀ j, Expr.VarIn j e → j < k) (hpow : e.PowOk env)
    (hbuild : buildE (leafGraph k env) e = some (G, root)) :
    ∀ j, j < k →
      gradAt (backward MathR G root) j = e.pderiv env j ∧
      HasDerivAt (fun t => Expr.eval (Function.update env j t) e)
        (gradAt (backward MathR G root) j) (env j) := by
  intro j hj
  have hgr := built_backward_leaf_grads MathR (fun _ _ => rfl) env k e G root
    hvar hpow hbuild j hj
  refine ⟨hgr, ?_⟩
  rw [hgr]
  exact eval_hasDerivAt env j e hpow

/-- Concrete instance for the hypotheses of
`leaf_grads_are_partial_derivatives`: the expression `x * x` over one
leaf with data 3. -/
theorem leaf_grads_are_partial_derivatives_witness :
    (∀ j, Expr.VarIn j (Expr.mul (.var 0) (.var 0)) → j < 1) ∧
    (Expr.mul (.var 0) (.var 0)).PowOk (fun _ => (3 : ℝ)) ∧
    buildE (leafGraph 1 (fun _ => (3 : ℝ))) (Expr.mul (.var 0) (.var 0)) =
      some ((vmul (leafGraph 1 (fun _ => (3 : ℝ))) 0 0).1, 1) ∧
    (gradAt (backward MathR (vmul (leafGraph 1 (fun _ => (3 : ℝ))) 0 0).1 1) 0 =
        (Expr.mul (.var 0) (.var 0)).pderiv (fun _ => (3 : ℝ)) 0 ∧
      HasDerivAt
        (fun t => Expr.eval (Function.update (fun _ => (3 : ℝ)) 0 t)
          (Expr.mul (.var 0) (.var 0)))
        (gradAt (backward MathR (vmul (leafGraph 1 (fun _ => (3 : ℝ))) 0 0).1 1) 0)
        ((fun _ => (3 : ℝ)) 0)) := by
  refine ⟨?_, ?_, rfl, ?_⟩
  · intro j hj
    rcases hj with h | h <;> simp [Expr.VarIn] at h <;> omega
  · exact ⟨trivial, trivial⟩
  · exact leaf_grads_are_partial_derivatives (fun _ => (3 : ℝ)) 1
      (Expr.mul (.var 0) (.var 0)) (vmul (leafGraph 1 (fun _ => (3 : ℝ))) 0 0).1 1
      (fun j hj => by rcases hj with h | h <;> simp [Expr.VarIn] at h <;> omega)
      ⟨trivial, trivial⟩ rfl 0 (by omega)

/-- Concrete instance for the hypotheses of
`backward_grad_is_sum_over_consumers`. -/
theorem backward_grad_is_sum_over_consumers_witness :
    Wf topoExample ∧ 3 < topoExample.length ∧ (∀ i, gradAt topoExample i = 0) ∧
    BackwardCompletes topoExample 3 ∧
    (backwardE Mq topoExample 3 = some (backward Mq topoExample 3) ∧
    ∀ x, gradAt (backward Mq topoExample 3) x =
      (if x = 3 then 1 else 0) +
        ∑ j ∈ Finset.range topoExample.length,
          localSum Mq (backward Mq topoExample 3) (gradAt (backward Mq topoExample 3)) j x) :=
  ⟨by decide, by decide, topoExample_grads_zero, by decide,
    backward_grad_is_sum_over_consumers Mq topoExample 3 (by decide) (by decide)
      topoExample_grads_zero (by decide)⟩

end MLPBasics

namespace NewtonSchulz

open Matrix

/-- `np.linalg.norm(A, ord='fro')`: the Frobenius norm. -/
noncomputable def frobNorm {n d : ℕ} (A : Matrix (Fin n) (Fin d) ℝ) : ℝ :=
  Real.sqrt (∑ i, ∑ j, A i j ^ 2)

/-- One loop iteration `X = a * X - b * X @ X.T @ X` with `a = 3/2`,
`b = 1/2` (matrix products associate to the left as in numpy). -/
noncomputable def nsStep {n d : ℕ} (X : Matrix (Fin n) (Fin d) ℝ) :
    Matrix (Fin n) (Fin d) ℝ :=
  (3 / 2 : ℝ) • X - (1 / 2 : ℝ) • (X * Xᵀ * X)

/-- `Newton_Schulz(A, n_steps, eps)`: normalize `X = A / (eps + ||A||_F)`
then run the update `n_steps` times. -/
noncomputable def Newton_Schulz {n d : ℕ} (A : Matrix (Fin n) (Fin d) ℝ)
    (n_steps : ℕ) (eps : ℝ) : Matrix (Fin n) (Fin d) ℝ :=
  nsStep^[n_steps] ((eps + frobNorm A)⁻¹ • A)

/-- The scalar polynomial the iteration applies to each singular value. -/
noncomputable def nsPoly (s : ℝ) : ℝ := 3 / 2 * s - 1 / 2 * s ^ 3

theorem nsPoly_pos {t : ℝ} (h0 : 0 < t) (h3 : t < Real.sqrt 3) : 0 < nsPoly t := by
  have hsq : t ^ 2 < 3 := (Real.lt_sqrt (le_of_lt h0)).mp h3
  unfold nsPoly
  nlinarith

theorem nsPoly_le_one {t : ℝ} (h0 : 0 ≤ t) : nsPoly t ≤ 1 := by
  unfold nsPoly
  nlinarith [mul_nonneg (mul_nonneg h0 (sq_nonneg (t - 1)))
    (show (0 : ℝ) ≤ t + 2 by linarith), sq_nonneg (t - 1)]

theorem le_nsPoly {t : ℝ} (h0 : 0 < t) (h1 : t ≤ 1) : t ≤ nsPoly t := by
  unfold nsPoly
  nlinarith [mul_nonneg (le_of_lt h0) (show (0 : ℝ) ≤ 1 - t ^ 2 by nlinarith)]

theorem one_lt_sqrt_three : (1 : ℝ) < Real.sqrt 3 := by
  rw [show (1 : ℝ) = Real.sqrt 1 by simp]
  exact Real.sqrt_lt_sqrt (by norm_num) (by norm_num)

/-- Iterating the singular-value polynomial from any value in
`(0, sqrt 3)` converges to 1. -/
theorem nsPoly_iterate_tendsto_one :
    ∀ s ∈ Set.Ioo (0 : ℝ) (Real.sqrt 3),
      Filter.Tendsto (fun m => nsPoly^[m] s) Filter.atTop (nhds 1) := by
  intro s hs
  obtain ⟨hs0, hs3⟩ := hs
  have hstep : ∀ t, 0 < t → t ≤ 1 → 0 < nsPoly t ∧ nsPoly t ≤ 1 := fun t h0 h1 =>
    ⟨nsPoly_pos h0 (lt_of_le_of_lt h1 one_lt_sqrt_three), nsPoly_le_one (le_of_lt h0)⟩
  have hs1 : 0 < nsPoly s ∧ nsPoly s ≤ 1 :=
    ⟨nsPoly_pos hs0 hs3, nsPoly_le_one (le_of_lt hs0)⟩
  set u : ℕ → ℝ := fun m => nsPoly^[m] (nsPoly s) with hudef
  have husucc : ∀ m, u (m + 1) = nsPoly (u m) := by
    intro m
    rw [hudef]
    exact Function.iterate_succ_apply' nsPoly m (nsPoly s)
  have hinv : ∀ m, 0 < u m ∧ u m ≤ 1 := by
    intro m
    induction m with
    | zero => exact hs1
    | succ m ih =>
      rw [husucc m]
      exact hstep (u m) ih.1 ih.2
  have hmono : Monotone u := by
    refine monotone_nat_of_le_succ (fun m => ?_)
    rw [husucc m]
    exact le_nsPoly (hinv m).1 (hinv m).2
  have hbdd : BddAbove (Set.range u) := by
    refine ⟨1, ?_⟩
    rintro x ⟨m, rfl⟩
    exact (hinv m).2
  have htend : Filter.Tendsto u Filter.atTop (nhds (⨆ m, u m)) :=
    tendsto_atTop_ciSup hmono hbdd
  have hL0 : 0 < ⨆ m, u m := lt_of_lt_of_le (hinv 0).1 (le_ciSup hbdd 0)
  have hcont : Continuous nsPoly := by
    have : nsPoly = fun s : ℝ => 3 / 2 * s - 1 / 2 * s ^ 3 := rfl
    rw [this]
    exact (continuous_const.mul continuous_id).sub (continuous_const.mul (continuous_pow 3))
  have hshift : Filter.Tendsto (fun m => u (m + 1)) Filter.atTop (nhds (⨆ m, u m)) :=
    htend.comp (Filter.tendsto_add_atTop_nat 1)
  have hfix : Filter.Tendsto (fun m => nsPoly (u m)) Filter.atTop
      (nhds (nsPoly (⨆ m, u m))) :=
    (hcont.tendsto _).comp htend
  have hfuneq : (fun m => u (m + 1)) = fun m => nsPoly (u m) := funext husucc
  rw [hfuneq] at hshift
  have heq : nsPoly (⨆ m, u m) = ⨆ m, u m := tendsto_nhds_unique hfix hshift
  unfold nsPoly at heq
  have hfact : (⨆ m, u m) * ((⨆ m, u m) - 1) * ((⨆ m, u m) + 1) = 0 := by
    linear_combination (-2 : ℝ) * heq
  have hLval : (⨆ m, u m) = 1 := by
    rcases mul_eq_zero.mp hfact with h | h
    · rcases mul_eq_zero.mp h with h' | h'
      · exact absurd h' (ne_of_gt hL0)
      · linarith
    · linarith
  rw [hLval] at htend
  refine (Filter.tendsto_add_atTop_iff_nat 1).mp ?_
  have hvu : (fun m => nsPoly^[m + 1] s) = u := by
    funext m
    rw [Function.iterate_succ_apply]
  rw [show (fun m => nsPoly^[m + 1] s) = u from hvu]
  exact htend

/-- C7: `Newton_Schulz` first normalizes by `eps + ||A||_F`, then applies
the purely polynomial update exactly `n_steps` times (no singular value
decomposition appears in the definition); on a reduced SVD
`X = U S Vᵀ` one step maps each singular value `s` to
`(3/2)s - (1/2)s³`, and iterating that map drives every value in
`(0, sqrt 3)` to 1. -/
theorem newton_schulz_spec :
    (∀ (n d : ℕ) (A : Matrix (Fin n) (Fin d) ℝ) (eps : ℝ),
      Newton_Schulz A 0 eps = (eps + frobNorm A)⁻¹ • A) ∧
    (∀ (n d : ℕ) (A : Matrix (Fin n) (Fin d) ℝ) (eps : ℝ) (m : ℕ),
      Newton_Schulz A (m + 1) eps = nsStep (Newton_Schulz A m eps)) ∧
    (∀ (n d r : ℕ) (U : Matrix (Fin n) (Fin r) ℝ) (σ : Fin r → ℝ)
      (V : Matrix (Fin d) (Fin r) ℝ), Uᵀ * U = 1 → Vᵀ * V = 1 →
      nsStep (U * Matrix.diagonal σ * Vᵀ) =
        U * Matrix.diagonal (fun i => nsPoly (σ i)) * Vᵀ) ∧
    (∀ s : ℝ, s ∈ Set.Ioo (0 : ℝ) (Real.sqrt 3) →
      Filter.Tendsto (fun m => nsPoly^[m] s) Filter.atTop (nhds 1)) := by
  refine ⟨fun n d A eps => rfl, fun n d A eps m => ?_, ?_, nsPoly_iterate_tendsto_one⟩
  · unfold Newton_Schulz
    exact Function.iterate_succ_apply' nsStep m _
  · intro n d r U σ V hU hV
    have hV' : ∀ z : Matrix (Fin r) (Fin d) ℝ, Vᵀ * (V * z) = z := by
      intro z
      rw [← Matrix.mul_assoc, hV, Matrix.one_mul]
    have hU' : ∀ z : Matrix (Fin r) (Fin d) ℝ, Uᵀ * (U * z) = z := by
      intro z
      rw [← Matrix.mul_assoc, hU, Matrix.one_mul]
    have key : (U * Matrix.diagonal σ * Vᵀ) * (U * Matrix.diagonal σ * Vᵀ)ᵀ *
        (U * Matrix.diagonal σ * Vᵀ) =
        U * (Matrix.diagonal σ * Matrix.diagonal σ * Matrix.diagonal σ) * Vᵀ := by
      rw [Matrix.transpose_mul, Matrix.transpose_mul, Matrix.transpose_transpose,
        Matrix.diagonal_transpose]
      simp only [Matrix.mul_assoc]
      rw [hU' (Matrix.diagonal σ * Vᵀ)]
      rw [hV' (Matrix.diagonal σ * (Matrix.diagonal σ * Vᵀ))]
    have hD3 : Matrix.diagonal σ * Matrix.diagonal σ * Matrix.diagonal σ =
        Matrix.diagonal (fun i => σ i * σ i * σ i) := by
      rw [Matrix.diagonal_mul_diagonal, Matrix.diagonal_mul_diagonal]
    have hpolyD : Matrix.diagonal (fun i => nsPoly (σ i)) =
        (3 / 2 : ℝ) • Matrix.diagonal σ -
          (1 / 2 : ℝ) • Matrix.diagonal (fun i => σ i * σ i * σ i) := by
      ext i j
      by_cases hij : i = j
      · subst hij
        simp [Matrix.diagonal_apply_eq, nsPoly]
        ring
      · simp [Matrix.diagonal_apply_ne _ hij]
    unfold nsStep
    rw [key, hD3, hpolyD]
    rw [Matrix.mul_sub, Matrix.sub_mul]
    rw [Matrix.mul_smul, Matrix.smul_mul, Matrix.mul_smul, Matrix.smul_mul]

/-- Concrete instance for the hypotheses of `newton_schulz_spec`. -/
theorem newton_schulz_spec_witness :
    ((1 : Matrix (Fin 1) (Fin 1) ℝ)ᵀ * 1 = 1) ∧
    ((1 : ℝ) ∈ Set.Ioo (0 : ℝ) (Real.sqrt 3)) ∧
    nsStep ((1 : Matrix (Fin 1) (Fin 1) ℝ) * Matrix.diagonal (fun _ => (1 : ℝ)) * 1ᵀ) =
      (1 : Matrix (Fin 1) (Fin 1) ℝ) *
        Matrix.diagonal (fun i : Fin 1 => nsPoly ((fun _ => (1 : ℝ)) i)) * 1ᵀ ∧
    Filter.Tendsto (fun m => nsPoly^[m] (1 : ℝ)) Filter.atTop (nhds 1) := by
  have hone : (1 : Matrix (Fin 1) (Fin 1) ℝ)ᵀ * 1 = 1 := by
    rw [Matrix.transpose_one, Matrix.one_mul]
  have hmem : (1 : ℝ) ∈ Set.Ioo (0 : ℝ) (Real.sqrt 3) :=
    ⟨by norm_num, one_lt_sqrt_three⟩
  exact ⟨hone, hmem,
    newton_schulz_spec.2.2.1 1 1 1 1 (fun _ => (1 : ℝ)) 1 hone hone,
    newton_schulz_spec.2.2.2 1 hmem⟩

end NewtonSchulz
